import Mathlib

/-!
Shallow embedding of the core of the `blits-rs` engine (The Battle of LITS)
and proofs about it.  Each definition mirrors one item of the Rust source:
`src/battle_of_lits/consts.rs`, `coords.rs`, `tetromino/transform.rs`,
`tetromino/mod.rs`, `tetromino/piecemap.rs`, `board/board_cell.rs`,
`board/foursquare.rs`, `board/indexing.rs`, `board/moves.rs`,
`board/zobrist.rs` and `board/mod.rs`.
-/

set_option autoImplicit false
set_option maxRecDepth 100000
set_option maxHeartbeats 2000000

namespace BoL

/-! ### Constants (`consts.rs`) -/

def BOARD_SIZE : Nat := 10

def PIECES_PER_KIND : Nat := 5

def NUM_PIECES : Nat := 1292

def NULL_MOVE : Nat := NUM_PIECES

/-- `Player` from `consts.rs`: a cell typing, X or O. -/
inductive Player where
  | X
  | O
deriving DecidableEq, Repr, Fintype

/-- `Player::perspective`: X scores +1, O scores -1. -/
def Player.perspective : Player → Int
  | Player.X => 1
  | Player.O => -1

/-- `impl Neg for Player`. -/
def Player.neg : Player → Player
  | Player.X => Player.O
  | Player.O => Player.X

/-- `Tile` from `consts.rs`: the four LITS tile kinds. -/
inductive Tile where
  | L
  | I
  | T
  | S
deriving DecidableEq, Repr, Fintype

/-- `Tile::all`: the LITS tile types in order. -/
def Tile.all : List Tile := [Tile.L, Tile.I, Tile.T, Tile.S]

/-- Numeric value of a tile kind (`Tile as u8`, used to index `piece_bag`). -/
def Tile.toNat : Tile → Nat
  | Tile.L => 0
  | Tile.I => 1
  | Tile.T => 2
  | Tile.S => 3

/-! ### Coordinates (`coords.rs`) -/

/-- `Coord`: an unsigned board coordinate. -/
@[ext]
structure Coord where
  row : Nat
  col : Nat
deriving DecidableEq, Repr

/-- `OffsetCoord`: a signed coordinate permitting out-of-range intermediates. -/
@[ext]
structure OffsetCoord where
  rows : Int
  cols : Int
deriving DecidableEq, Repr

/-- `Coord::in_bounds`. -/
def Coord.in_bounds (c : Coord) : Bool :=
  c.row < 10 && c.col < 10

/-- `From<Coord> for OffsetCoord`. -/
def Coord.toOffset (c : Coord) : OffsetCoord :=
  { rows := (c.row : Int), cols := (c.col : Int) }

/-- `OffsetCoord::coerce`: the unchecked cast back to `Coord`.
In Rust this is `as usize`; it is only ever applied to coordinates that have
passed an in-bounds check, where `Int.toNat` agrees with the cast. -/
def OffsetCoord.coerce (c : OffsetCoord) : Coord :=
  { row := c.rows.toNat, col := c.cols.toNat }

/-- `OffsetCoord::in_bounds_signed`. -/
def OffsetCoord.in_bounds_signed (c : OffsetCoord) : Bool :=
  0 ≤ c.rows && c.rows < 10 && 0 ≤ c.cols && c.cols < 10

/-- `OffsetCoord::in_foursquare_bounds_signed`. -/
def OffsetCoord.in_foursquare_bounds_signed (c : OffsetCoord) : Bool :=
  0 ≤ c.rows && c.rows < 9 && 0 ≤ c.cols && c.cols < 9

/-- `Add` on `OffsetCoord`. -/
def OffsetCoord.add (a b : OffsetCoord) : OffsetCoord :=
  { rows := a.rows + b.rows, cols := a.cols + b.cols }

instance : Add OffsetCoord := ⟨OffsetCoord.add⟩

/-- `Sub` on `OffsetCoord`. -/
def OffsetCoord.sub (a b : OffsetCoord) : OffsetCoord :=
  { rows := a.rows - b.rows, cols := a.cols - b.cols }

instance : Sub OffsetCoord := ⟨OffsetCoord.sub⟩

/-- `Coord + OffsetCoord` (yields an `OffsetCoord`). -/
def Coord.addOffset (c : Coord) (o : OffsetCoord) : OffsetCoord :=
  c.toOffset + o

/-- `OffsetCoord::manhattan`. -/
def OffsetCoord.manhattan (a b : OffsetCoord) : Nat :=
  (a.rows - b.rows).natAbs + (a.cols - b.cols).natAbs

/-- `OffsetCoord::neighbours`: whether two coordinates are orthogonally
adjacent (taxicab distance exactly 1). -/
def OffsetCoord.neighbours (a b : OffsetCoord) : Bool :=
  a.manhattan b == 1

/-- `ORTHOGONAL_OFFSETS`. -/
def ORTHOGONAL_OFFSETS : List OffsetCoord :=
  [⟨-1, 0⟩, ⟨0, -1⟩, ⟨0, 1⟩, ⟨1, 0⟩]

/-- `ANCHOR_OFFSETS`: top-left anchors of the 2x2 boxes containing a cell. -/
def ANCHOR_OFFSETS : List OffsetCoord :=
  [⟨-1, -1⟩, ⟨-1, 0⟩, ⟨0, -1⟩, ⟨0, 0⟩]

/-! ### Transforms (`tetromino/transform.rs`) -/

/-- The 8 transforms of the dihedral group acting on tetromino offsets. -/
inductive Transform where
  | Identity__
  | Rot90_____
  | Rot180____
  | Rot270____
  | Reflect___
  | ReflRot90_
  | ReflRot180
  | ReflRot270
deriving DecidableEq, Repr

/-- The declaration index of a transform; the derived Rust `Ord` instance
orders the variants in declaration order, which `BTreeSet` uses. -/
def Transform.idx : Transform → Nat
  | Transform.Identity__ => 0
  | Transform.Rot90_____ => 1
  | Transform.Rot180____ => 2
  | Transform.Rot270____ => 3
  | Transform.Reflect___ => 4
  | Transform.ReflRot90_ => 5
  | Transform.ReflRot180 => 6
  | Transform.ReflRot270 => 7

/-- `Transform::all`: all transforms in canonical order. -/
def Transform.all : List Transform :=
  [Transform.Identity__, Transform.Rot90_____, Transform.Rot180____,
   Transform.Rot270____, Transform.Reflect___, Transform.ReflRot90_,
   Transform.ReflRot180, Transform.ReflRot270]

/-- `Transform::apply_one`: apply a transform to one offset point. -/
def Transform.apply_one (t : Transform) (o : OffsetCoord) : OffsetCoord :=
  match t with
  | Transform.Identity__ => ⟨o.rows, o.cols⟩
  | Transform.Rot90_____ => ⟨o.cols, -o.rows⟩
  | Transform.Rot180____ => ⟨-o.rows, -o.cols⟩
  | Transform.Rot270____ => ⟨-o.cols, o.rows⟩
  | Transform.Reflect___ => ⟨-o.rows, o.cols⟩
  | Transform.ReflRot90_ => ⟨o.cols, o.rows⟩
  | Transform.ReflRot180 => ⟨o.rows, -o.cols⟩
  | Transform.ReflRot270 => ⟨-o.cols, -o.rows⟩

/-- `Transform::rotate`. -/
def Transform.rotate : Transform → Transform
  | Transform.Identity__ => Transform.Rot90_____
  | Transform.Rot90_____ => Transform.Rot180____
  | Transform.Rot180____ => Transform.Rot270____
  | Transform.Rot270____ => Transform.Identity__
  | Transform.Reflect___ => Transform.ReflRot90_
  | Transform.ReflRot90_ => Transform.ReflRot180
  | Transform.ReflRot180 => Transform.ReflRot270
  | Transform.ReflRot270 => Transform.Reflect___

/-- `Transform::reflect`. -/
def Transform.reflect : Transform → Transform
  | Transform.Identity__ => Transform.Reflect___
  | Transform.Rot90_____ => Transform.ReflRot270
  | Transform.Rot180____ => Transform.ReflRot180
  | Transform.Rot270____ => Transform.ReflRot90_
  | Transform.Reflect___ => Transform.Identity__
  | Transform.ReflRot90_ => Transform.Rot270____
  | Transform.ReflRot180 => Transform.Rot180____
  | Transform.ReflRot270 => Transform.Rot90_____

/-- `impl Add for &Transform`: group composition. -/
def Transform.comp (lhs rhs : Transform) : Transform :=
  match rhs with
  | Transform.Identity__ => lhs
  | Transform.Rot90_____ => lhs.rotate
  | Transform.Rot180____ => lhs.rotate.rotate
  | Transform.Rot270____ => lhs.rotate.rotate.rotate
  | Transform.Reflect___ => lhs.reflect
  | Transform.ReflRot90_ => lhs.reflect.rotate
  | Transform.ReflRot180 => lhs.reflect.rotate.rotate
  | Transform.ReflRot270 => lhs.reflect.rotate.rotate.rotate

/-- `Transform::canonicalize`: the canonical transform for a tile kind,
quotienting the 8-element group by the piece's symmetry. -/
def Transform.canonicalize (t : Transform) (lits : Tile) : Transform :=
  match lits with
  | Tile.L => t
  | Tile.I =>
    match t with
    | Transform.Rot180____ | Transform.Reflect___ | Transform.ReflRot180 =>
      Transform.Identity__
    | Transform.Rot270____ | Transform.ReflRot90_ | Transform.ReflRot270 =>
      Transform.Rot90_____
    | _ => t
  | Tile.T =>
    match t with
    | Transform.Reflect___ => Transform.Identity__
    | Transform.ReflRot270 => Transform.Rot90_____
    | Transform.ReflRot180 => Transform.Rot180____
    | Transform.ReflRot90_ => Transform.Rot270____
    | _ => t
  | Tile.S =>
    match t with
    | Transform.Rot180____ => Transform.Identity__
    | Transform.Rot270____ => Transform.Rot90_____
    | Transform.ReflRot180 => Transform.Reflect___
    | Transform.ReflRot270 => Transform.ReflRot90_
    | _ => t

/-- Ordered duplicate-free insertion, mirroring `BTreeSet::insert` for the
derived declaration-order `Ord` on `Transform`. -/
def insertTransform (t : Transform) : List Transform → List Transform
  | [] => [t]
  | x :: xs =>
    if t.idx < x.idx then t :: x :: xs
    else if t.idx = x.idx then x :: xs
    else x :: insertTransform t xs

/-- `Transform::enumerate`: the distinct canonical transforms for a kind, in
ascending order (the Rust code collects `canonicalize` images in a
`BTreeSet`). -/
def Transform.enumerate (kind : Tile) : List Transform :=
  Transform.all.foldl (fun s t => insertTransform (t.canonicalize kind) s) []

/-! ### Tetromino (`tetromino/mod.rs`) -/

/-- `Tetromino`: kind, anchor, the four offset points and the transform that
produced them.  The Rust struct also stores `real_coords`, precomputed at
construction as `points.map(|c| anchor + c)`; here it is the derived function
`Tetromino.real_coords_lazy`. -/
structure Tetromino where
  kind : Tile
  anchor : Coord
  points : List OffsetCoord
  transform : Transform
deriving DecidableEq, Repr

/-- `Tetromino::_identity_template`: the base shape of each kind as offsets
on an anchor point. -/
def Tetromino.identity_template (kind : Tile) : List OffsetCoord :=
  match kind with
  | Tile.L => [⟨-1, 0⟩, ⟨0, 0⟩, ⟨1, 0⟩, ⟨1, 1⟩]
  | Tile.I => [⟨-1, 0⟩, ⟨0, 0⟩, ⟨1, 0⟩, ⟨2, 0⟩]
  | Tile.T => [⟨0, -1⟩, ⟨0, 0⟩, ⟨0, 1⟩, ⟨1, 0⟩]
  | Tile.S => [⟨0, -1⟩, ⟨0, 0⟩, ⟨1, 0⟩, ⟨1, 1⟩]

/-- `Tetromino::identity`: the identity tetromino of a kind at an anchor. -/
def Tetromino.identity (kind : Tile) (anchor : Coord) : Tetromino :=
  { kind := kind, anchor := anchor, points := Tetromino.identity_template kind,
    transform := Transform.Identity__ }

/-- `real_coords_lazy` / the stored `real_coords` field: the points
translated by the anchor, in stored order. -/
def Tetromino.real_coords_lazy (t : Tetromino) : List OffsetCoord :=
  t.points.map (fun p => t.anchor.addOffset p)

/-- `Transform::apply`: transform every point through the kind-canonical
form of the transform and compose the transform tags. -/
def Transform.apply (t : Transform) (tet : Tetromino) : Tetromino :=
  { kind := tet.kind, anchor := tet.anchor,
    points := tet.points.map (fun p => (t.canonicalize tet.kind).apply_one p),
    transform := (tet.transform.comp t).canonicalize tet.kind }

/-- `Tetromino::enumerate`: all canonical-transform images of this
tetromino. -/
def Tetromino.enumerate (t : Tetromino) : List Tetromino :=
  (Transform.enumerate t.kind).map (fun tr => tr.apply t)

/-- `Tetromino::in_bounds`. -/
def Tetromino.in_bounds (t : Tetromino) : Bool :=
  t.real_coords_lazy.all (fun c => c.in_bounds_signed)

/-! ### The piece catalog (`tetromino/piecemap.rs`) -/

/-- Row-major anchors `(0..10).cartesian_product(0..10)`. -/
def anchors100 : List Coord :=
  (List.range 10).flatMap (fun row => (List.range 10).map (fun col => Coord.mk row col))

/-- The enumeration filling `PieceMap::forward`: for each kind in order
L, I, T, S, for each anchor in row-major order, each in-bounds canonical
isomorph.  The id of a placement is its index in this list. -/
def forwardList : List Tetromino :=
  Tile.all.flatMap (fun kind =>
    anchors100.flatMap (fun anchor =>
      (Tetromino.identity kind anchor).enumerate.filter Tetromino.in_bounds))

/-- `PieceMap::get_piece` via `get_unchecked`: reading past the end of the
table is undefined behaviour, modelled by `Option.none`. -/
def get_piece (id : Nat) : Option Tetromino :=
  forwardList.get? id

/-- Total accessor for the forward table, used where an id is already known
to be in range. -/
def forward (id : Nat) : Tetromino :=
  (forwardList.get? id).getD (Tetromino.identity Tile.L ⟨0, 0⟩)

/-- `PieceMap::get_kind`. -/
def get_kind (id : Nat) : Tile :=
  (forward id).kind

/-! ### Pairwise interactions (`tetromino/piecemap.rs`) -/

/-- `Interaction`: how two pieces interact on the board. -/
inductive Interaction where
  | Conflicting
  | Neutral
  | Adjacent
deriving DecidableEq, Repr

/-- Duplicate-freeness of a coordinate list (used to state piece
well-formedness). -/
def nodupB : List OffsetCoord → Bool
  | [] => true
  | x :: xs => !(xs.contains x) && nodupB xs

/-- The 2x2 check of `PieceMap::new` step 4: some cell of the list has its
right, lower and lower-right neighbours in the list as well.  The list is
read with set semantics, as the Rust `HashSet` union is. -/
def hasFullSquareL (l : List OffsetCoord) : Bool :=
  l.any (fun c =>
    l.contains (c + ⟨1, 0⟩) && l.contains (c + ⟨0, 1⟩) && l.contains (c + ⟨1, 1⟩))

/-- The body of the `i < j` double loop of `PieceMap::new`: the interaction
of two distinct placements.  The Rust code works on `HashSet`s of the four
real coordinates; membership tests on the coordinate lists are
equivalent. -/
def pairInteraction (lhs rhs : Tetromino) : Interaction :=
  let l := lhs.real_coords_lazy
  let r := rhs.real_coords_lazy
  if l.any (fun c => r.contains c) then Interaction.Conflicting
  else if ! l.any (fun a => r.any (fun b => b.neighbours a)) then Interaction.Neutral
  else if lhs.kind = rhs.kind then Interaction.Conflicting
  else if hasFullSquareL (l ++ r) then Interaction.Conflicting
  else Interaction.Adjacent

/-- `PieceMap::get_association`: reads `associations[min(i,j)][max(i,j)]`.
The matrix is initialized to `Conflicting` everywhere and the `i < j` loop
overwrites the strict upper triangle, so the diagonal stays
`Conflicting`. -/
def get_association (i j : Nat) : Interaction :=
  if min i j < max i j then pairInteraction (forward (min i j)) (forward (max i j))
  else Interaction.Conflicting

/-- `PieceMap::with_interaction` via `associations_specific`: the ids in
`0..NUM_PIECES` whose association with `id` is the given interaction. -/
def with_interaction (id : Nat) (int : Interaction) : Finset Nat :=
  (Finset.range NUM_PIECES).filter (fun p => get_association id p = int)

/-! ### Board cells (`board/board_cell.rs`) -/

/-- `BoardCell`: a packed `u8`.
Bits 0-1 hold the LITS value, bit 2 its presence flag, bit 3 the scoring
symbol, bit 4 its presence flag. -/
abbrev BoardCell := Fin 256

/-- `BoardCell::_extract`. -/
def BoardCell.extract (c : BoardCell) (offset extent : Nat) : Nat :=
  (c.val >>> offset) &&& extent

/-- `BoardCell::_with`: mask out the field and insert the shifted bits of
the new value.  The Rust `!mask` on `u8` is `255 ^^^ mask`; the trailing
`% 256` realizes the `u8` width of the result. -/
def BoardCell.withBits (c : BoardCell) (offset extent value : Nat) : BoardCell :=
  let mask := (extent <<< offset) % 256
  let antimask := 255 ^^^ mask
  ⟨((c.val &&& antimask) ||| ((value <<< offset) &&& mask)) % 256,
   Nat.mod_lt _ (by norm_num)⟩

/-- `Tile::from(u8)` (total here because the extracted field is 2 bits). -/
def Tile.fromU8 : Nat → Tile
  | 0 => Tile.L
  | 1 => Tile.I
  | 2 => Tile.T
  | _ => Tile.S

/-- `BoardCell::covered`: whether a tile covers this cell (bit 2). -/
def BoardCell.covered (c : BoardCell) : Bool :=
  c.extract 2 1 == 1

/-- `BoardCell::cell_value`: the scoring symbol, if present. -/
def BoardCell.cell_value (c : BoardCell) : Option Player :=
  if c.extract 4 1 == 1 then
    some (if c.extract 3 1 == 0 then Player.X else Player.O)
  else none

/-- `BoardCell::lits_value`: the covering tile, if present. -/
def BoardCell.lits_value (c : BoardCell) : Option Tile :=
  if c.covered then some (Tile.fromU8 (c.extract 0 3)) else none

/-- `BoardCell::with_cell`. -/
def BoardCell.with_cell (c : BoardCell) (cell : Option Player) : BoardCell :=
  match cell with
  | some v => (c.withBits 4 1 1).withBits 3 1 (match v with | Player.X => 0 | Player.O => 1)
  | none => c.withBits 4 1 0

/-- `BoardCell::with_lits`. -/
def BoardCell.with_lits (c : BoardCell) (lits : Option Tile) : BoardCell :=
  match lits with
  | some v => (c.withBits 2 1 1).withBits 0 3 v.toNat
  | none => c.withBits 2 1 0

/-- `BoardCell::negated`: negate the scoring symbol, if any. -/
def BoardCell.negated (c : BoardCell) : BoardCell :=
  match c.cell_value with
  | none => c
  | some v => c.with_cell (some v.neg)

/-- The grid of cells (`Grid` in `board/mod.rs`). -/
def Grid := Coord → BoardCell

/-- Row-major list of the 100 board cells (the iteration order of every
grid loop in the source). -/
def allCoords : List Coord :=
  (List.range 10).flatMap (fun row => (List.range 10).map (fun col => Coord.mk row col))

/-! ### Foursquare counter (`board/foursquare.rs`) -/

/-- The population counter of every 2x2, indexed by its top-left anchor. -/
def FoursquareCounter := Coord → Nat

/-- `AFFECTED_ANCHORS` of a cell: the in-bounds top-left anchors of the 2x2
boxes containing it. -/
def affected_anchors (c : Coord) : List Coord :=
  ANCHOR_OFFSETS.filterMap (fun off =>
    let a := c.addOffset off
    if a.in_foursquare_bounds_signed then some a.coerce else none)

/-- `FoursquareCounter::update_unchecked`: bump the population of every 2x2
touching the cell (denominated +1 for a placed tile, -1 for a removal). -/
def FoursquareCounter.update_unchecked (f : FoursquareCounter) (coord : Coord)
    (tile : Option Tile) : FoursquareCounter :=
  fun a =>
    if a ∈ affected_anchors coord then
      (if tile.isSome then f a + 1 else f a - 1)
    else f a

/-- `FoursquareCounter::_check_for`: some in-bounds 2x2 containing the cell
has exactly the given population. -/
def FoursquareCounter.checkFor (f : FoursquareCounter) (coord : Coord) (v : Nat) : Bool :=
  ANCHOR_OFFSETS.any (fun off =>
    let a := coord.addOffset off
    if a.in_foursquare_bounds_signed then f a.coerce == v else false)

/-- `FoursquareCounter::three`. -/
def FoursquareCounter.three (f : FoursquareCounter) (coord : Coord) : Bool :=
  f.checkFor coord 3

/-- Modelled from the spec: `FoursquareCounter::any` is called by
`valid_moves_set` in `board/moves.rs` but its definition is missing from
the source tree.  Per the spec a candidate is kept iff placing it "would
not complete any 2x2" after the counters were bumped for its own four
cells, so `any` reports whether some in-bounds 2x2 containing the cell has
become full (population 4). -/
def FoursquareCounter.any (f : FoursquareCounter) (coord : Coord) : Bool :=
  f.checkFor coord 4

/-- `Tetromino::neighbours`: the in-bounds orthogonal neighbours of the
piece's cells that are not themselves cells of the piece.  Backs
`PieceMap::neighbours`. -/
def Tetromino.neighboursSet (t : Tetromino) : Finset Coord :=
  let inside : Finset Coord :=
    (t.real_coords_lazy.filterMap (fun oc =>
      if oc.in_bounds_signed then some oc.coerce else none)).toFinset
  inside.biUnion (fun c =>
    (ORTHOGONAL_OFFSETS.filterMap (fun off =>
      let n := c.addOffset off
      if n.in_bounds_signed = true ∧ n.coerce ∉ inside then some n.coerce else none)).toFinset)

/-! ### Zobrist hashing (`board/zobrist.rs`)

The two lazily built tables are filled with values of Rust's
`DefaultHasher`, deterministic but unspecified; the development is
parameterized by the table contents `zt` (cell table, indexed as
`offset * 100 + i * 10 + j`) and `zm` (move table). -/

/-- `Board::cell_hash`: the hash contribution of one cell.  The offset
depends only on the scoring symbol; covered/uncovered makes no
difference. -/
def cell_hash (zt : Nat → Nat) (i j : Nat) (c : BoardCell) : Nat :=
  let offset : Nat :=
    match c.cell_value with
    | some Player.X => 0
    | some Player.O => 1
    | none => 2
  zt (offset * (BOARD_SIZE * BOARD_SIZE) + i * BOARD_SIZE + j)

/-- `Board::move_hash`: the hash contribution of a played move id. -/
def move_hash (zm : Nat → Nat) (mv : Nat) : Nat :=
  zm mv

/-- `Board::initial_zobrist_hash`: XOR of the cell hashes over the whole
grid, row-major. -/
def initial_zobrist_hash (zt : Nat → Nat) (cells : Grid) : Nat :=
  allCoords.foldl (fun h c => h ^^^ cell_hash zt c.row c.col (cells c)) 0

/-! ### The board (`board/mod.rs`, `board/indexing.rs`, `board/moves.rs`)

The Rust sources mix two iterations of the `Board` struct: `mod.rs`
declares `cells`, `edge_mask`, `foursquare_mask`, `history`, `piece_bag`,
`piecemap`, `player_to_move`, `swapped`, `zobrist_hash` and
`_valid_moves_cache`, while `moves.rs`, `indexing.rs` and `scores.rs` also
refer to `score`, `cover` and `neighbours` fields.  The embedding carries
the union of the fields the modelled operations touch (the never-used
`edge_mask` is dropped). -/

@[ext]
structure Board where
  cells : Grid
  foursquare_mask : FoursquareCounter
  history : List Nat
  piece_bag : Tile → Nat
  player_to_move : Player
  swapped : Bool
  zobrist_hash : Nat
  /-- `_valid_moves_cache: [Option<FastSet>; PIECES_PER_KIND * 4 + 1]`. -/
  valid_moves_cache : List (Option (Finset Nat))
  score : Int
  cover : Finset Coord
  neighbours : Finset Coord

/-- The all-empty grid (`BoardCell::default` everywhere), used by
`Board::new` when no symbol grid is provided. -/
def emptyGrid : Grid := fun _ => (0 : Fin 256)

/-- The initial material score of a grid: the sum of the perspectives of
its uncovered symbol cells.  Modelled from the spec (invariant §3.2): the
`Board::new` in `mod.rs` belongs to the struct iteration without a `score`
field, so no initializer for it appears in the source. -/
def initScore (cells : Grid) : Int :=
  allCoords.foldl (fun s c =>
    if (cells c).covered then s
    else s + (((cells c).cell_value).map Player.perspective).getD 0) 0

/-- The `_valid_moves_cache` as `Board::new` leaves it: `[const { None }; 21]`
with slot 0 set to the full id range. -/
def initial_cache : List (Option (Finset Nat)) :=
  (List.replicate (PIECES_PER_KIND * 4 + 1) none).set 0 (some (Finset.range NUM_PIECES))

/-- `Board::new`: construct a board from an optional symbol grid.  Note
that only slot 0 of the valid-move cache is populated. -/
def Board.new (zt : Nat → Nat) (symbols : Option Grid) : Board :=
  let cells := match symbols with
    | some grid => grid
    | none => emptyGrid
  { cells := cells
    foursquare_mask := fun _ => 0
    history := []
    piece_bag := fun _ => PIECES_PER_KIND
    player_to_move := Player.X
    swapped := false
    zobrist_hash := initial_zobrist_hash zt cells
    valid_moves_cache := initial_cache
    score := initScore cells
    cover := ∅
    neighbours := ∅ }

/-- `Board::can_swap`. -/
def Board.can_swap (b : Board) : Bool :=
  b.swapped == false && b.history.length == 1

/-- `Board::set_lits_unchecked` (`board/indexing.rs`): write the tile bits
of one cell, adjust the incremental score by the perspective of the cell's
symbol, and bump the foursquare counters (the new lits value `cur` decides
the direction).  The cell hash is unaffected, so `zobrist_hash` is not
touched. -/
def Board.set_lits_unchecked (b : Board) (coord : Coord) (lits : Option Tile) : Board :=
  let newCell := (b.cells coord).with_lits lits
  let cur := newCell.lits_value
  { b with
    cells := fun x => if x = coord then newCell else b.cells x
    score := b.score +
      ((newCell.cell_value.map Player.perspective).getD 0) *
        (match lits with | some _ => -1 | none => 1)
    foursquare_mask := b.foursquare_mask.update_unchecked coord cur }

/-- `Board::play_unchecked` (`board/moves.rs`): bag decrement, four
`set_lits_unchecked` writes, cover/neighbour mask maintenance, zobrist and
history update, player flip.  The source also refreshes a two-slot
`valid_moves` pair cache, a field that does not exist in the `Board` struct
of `mod.rs`; in particular `_valid_moves_cache` is left untouched. -/
def apply_piece_cells (k : Tile) (cl : List OffsetCoord) (b : Board) : Board :=
  cl.foldl (fun bb c => bb.set_lits_unchecked c.coerce (some k)) b

def Board.play_unchecked (zm : Nat → Nat) (b : Board) (tetromino : Tetromino)
    (id : Nat) : Board :=
  let b1 := { b with
    piece_bag := fun k => if k = tetromino.kind then b.piece_bag k - 1 else b.piece_bag k }
  let b2 := apply_piece_cells tetromino.kind tetromino.real_coords_lazy b1
  let cover := b2.cover ∪ (tetromino.real_coords_lazy.map OffsetCoord.coerce).toFinset
  let b3 := { b2 with
    cover := cover
    neighbours := (b2.neighbours ∪ (forward id).neighboursSet) \ cover }
  { b3 with
    zobrist_hash := b3.zobrist_hash ^^^ move_hash zm id
    history := b3.history ++ [id]
    player_to_move := b3.player_to_move.neg }

/-- `Board::swap` (`board/moves.rs`): negate every symbol (fixing the hash
cell by cell), negate the score, toggle `swapped` and flip the player. -/
def Board.swap (zt : Nat → Nat) (b : Board) : Board :=
  { b with
    cells := fun c => (b.cells c).negated
    zobrist_hash := allCoords.foldl
      (fun z c =>
        (z ^^^ cell_hash zt c.row c.col (b.cells c)) ^^^
          cell_hash zt c.row c.col ((b.cells c).negated))
      b.zobrist_hash
    score := -b.score
    swapped := !b.swapped
    player_to_move := b.player_to_move.neg }

/-- `Board::pass`: the checked swap.  Succeeds iff the history holds
exactly one move; the `Result<()>` is modelled by the Bool (`true` = `Ok`),
and the second component is the post-call state. -/
def Board.pass (zt : Nat → Nat) (b : Board) : Bool × Board :=
  if b.history.length = 1 then (true, b.swap zt) else (false, b)

/-- `Board::valid_moves`: the cached accessor
`self._valid_moves_cache[self.history.len()].as_ref().unwrap()`.  A missing
slot (index out of range, or a `None` entry) makes the Rust code panic,
modelled by `Option.none`. -/
def Board.valid_moves (b : Board) : Option (Finset Nat) :=
  match b.valid_moves_cache.get? b.history.length with
  | some (some s) => some s
  | _ => none

/-- The trailing filter of `valid_moves_set`: keep a candidate iff its kind
is still in the bag and simulating its four cells on a copy of the
foursquare counter completes no 2x2. -/
def Board.piece_filter (b : Board) (p : Nat) : Bool :=
  if b.piece_bag (get_kind p) == 0 then false
  else
    let piece := forward p
    let fsq := piece.real_coords_lazy.foldl
      (fun f c => f.update_unchecked c.coerce (some piece.kind)) b.foursquare_mask
    ! piece.real_coords_lazy.any (fun c => fsq.any c.coerce)

/-- `Board::valid_moves_set` (`board/moves.rs`): the mask-based
recomputation of the legal move set, by cases on the history length. -/
def Board.valid_moves_set (b : Board) : Finset Nat :=
  match b.history with
  | [] => Finset.range NUM_PIECES
  | [h0] =>
    let mvs := with_interaction h0 Interaction.Adjacent
    if b.swapped = false then insert NULL_MOVE mvs else mvs
  | _ =>
    let hist := b.history.toFinset
    let adj := hist.biUnion (fun p => with_interaction p Interaction.Adjacent)
    let conf := hist.biUnion (fun p => with_interaction p Interaction.Conflicting)
    ((adj \ conf) \ hist).filter (fun p => b.piece_filter p = true)

/-- `Board::play`: the checked play.  `none` models a panic or undefined
behaviour (the cache `unwrap`, or the `get_unchecked` read of the forward
table); `some (true, b')` is `Ok` after `play_unchecked`, and
`some (false, b)` is the `IllegalMove` error, which touches no field. -/
def Board.play (zm : Nat → Nat) (b : Board) (mv : Nat) : Option (Bool × Board) :=
  match b.valid_moves with
  | none => none
  | some s =>
    if mv ∈ s then
      match get_piece mv with
      | none => none
      | some t => some (true, b.play_unchecked zm t mv)
    else some (false, b)

/-- The reachable states: `Board::new`, checked plays of piece moves
accepted by the mask-based legal set, and accepted passes.  `play` with a
piece id goes through `play_unchecked` on the piece the id denotes, `pass`
through `swap`. -/
inductive Reachable (zt zm : Nat → Nat) : Board → Prop where
  | init (symbols : Option Grid)
      (hsym : ∀ c : Coord, ((Board.new zt symbols).cells c).covered = false) :
      Reachable zt zm (Board.new zt symbols)
  | step_play (b : Board) (mv : Nat) :
      Reachable zt zm b → mv ∈ b.valid_moves_set → mv ≠ NULL_MOVE →
      Reachable zt zm (b.play_unchecked zm (forward mv) mv)
  | step_pass (b : Board) :
      Reachable zt zm b → b.history.length = 1 →
      Reachable zt zm (b.swap zt)

/-! ### Basic cell-level facts (finite checks over the 256 `u8` values) -/

theorem cell_value_with_lits (c : BoardCell) (l : Option Tile) :
    (c.with_lits l).cell_value = c.cell_value := by
  revert c l; decide

theorem covered_with_lits_some (c : BoardCell) (k : Tile) :
    (c.with_lits (some k)).covered = true := by
  revert c k; decide

theorem lits_value_with_lits_some (c : BoardCell) (k : Tile) :
    ((c.with_lits (some k)).lits_value).isSome = true := by
  revert c k; decide

theorem covered_negated (c : BoardCell) : c.negated.covered = c.covered := by
  revert c; decide

theorem negated_negated (c : BoardCell) : c.negated.negated = c := by
  revert c; decide

theorem player_neg_neg (p : Player) : p.neg.neg = p := by cases p <;> rfl

/-! ### XOR-fold helpers -/

/-- XOR of a function over a list. -/
def xorOver {α : Type} : List α → (α → Nat) → Nat
  | [], _ => 0
  | x :: xs, f => f x ^^^ xorOver xs f

theorem xor_left_comm (a b c : Nat) : a ^^^ (b ^^^ c) = b ^^^ (a ^^^ c) := by
  rw [← Nat.xor_assoc, Nat.xor_comm a b, Nat.xor_assoc]

theorem foldl_xor_shift {α : Type} (f : α → Nat) (l : List α) (z : Nat) :
    l.foldl (fun a x => a ^^^ f x) z = z ^^^ xorOver l f := by
  induction l generalizing z with
  | nil => simp [xorOver]
  | cons x xs ih =>
    simp only [List.foldl_cons, xorOver]
    rw [ih, Nat.xor_assoc]

theorem xorOver_congr {α : Type} {f g : α → Nat} {l : List α}
    (h : ∀ x ∈ l, f x = g x) : xorOver l f = xorOver l g := by
  induction l with
  | nil => rfl
  | cons x xs ih =>
    simp only [xorOver]
    rw [h x (by simp), ih (fun y hy => h y (by simp [hy]))]

theorem xorOver_xor {α : Type} (f g : α → Nat) (l : List α) :
    xorOver l (fun x => f x ^^^ g x) = xorOver l f ^^^ xorOver l g := by
  induction l with
  | nil => simp [xorOver]
  | cons x xs ih =>
    simp only [xorOver, ih]
    simp [Nat.xor_assoc, Nat.xor_comm, xor_left_comm]

theorem xorOver_append {α : Type} (f : α → Nat) (l m : List α) :
    xorOver (l ++ m) f = xorOver l f ^^^ xorOver m f := by
  induction l with
  | nil => simp [xorOver]
  | cons x xs ih =>
    simp only [List.cons_append, xorOver, List.append_eq, ih, Nat.xor_assoc]

/-- `initial_zobrist_hash` is the XOR over all cells. -/
theorem initial_zobrist_hash_eq (zt : Nat → Nat) (g : Grid) :
    initial_zobrist_hash zt g =
      xorOver allCoords (fun c => cell_hash zt c.row c.col (g c)) := by
  simp only [initial_zobrist_hash]
  rw [foldl_xor_shift, Nat.zero_xor]

/-- The interleaved XOR loop of `swap` splits into the old hash XOR a
per-cell delta. -/
theorem swap_zobrist_split (zt : Nat → Nat) (b : Board) :
    (b.swap zt).zobrist_hash =
      b.zobrist_hash ^^^
        xorOver allCoords (fun c =>
          cell_hash zt c.row c.col (b.cells c) ^^^
            cell_hash zt c.row c.col ((b.cells c).negated)) := by
  simp only [Board.swap]
  have hfn : (fun (z : Nat) (c : Coord) =>
        z ^^^ cell_hash zt c.row c.col (b.cells c) ^^^
          cell_hash zt c.row c.col ((b.cells c).negated)) =
      (fun (z : Nat) (c : Coord) =>
        z ^^^ (cell_hash zt c.row c.col (b.cells c) ^^^
          cell_hash zt c.row c.col ((b.cells c).negated))) := by
    funext z c
    rw [Nat.xor_assoc]
  rw [hfn, foldl_xor_shift]

/-! ### The swap involution -/

theorem swap_cells (zt : Nat → Nat) (b : Board) (c : Coord) :
    (b.swap zt).cells c = (b.cells c).negated := rfl

theorem swap_history (zt : Nat → Nat) (b : Board) :
    (b.swap zt).history = b.history := rfl

theorem swap_swap (zt : Nat → Nat) (b : Board) : (b.swap zt).swap zt = b := by
  have hz : ((b.swap zt).swap zt).zobrist_hash = b.zobrist_hash := by
    rw [swap_zobrist_split zt (b.swap zt)]
    have hdelta :
        xorOver allCoords (fun c =>
          cell_hash zt c.row c.col ((b.swap zt).cells c) ^^^
            cell_hash zt c.row c.col (((b.swap zt).cells c).negated)) =
        xorOver allCoords (fun c =>
          cell_hash zt c.row c.col (b.cells c) ^^^
            cell_hash zt c.row c.col ((b.cells c).negated)) := by
      apply xorOver_congr
      intro c _
      rw [swap_cells, negated_negated]
      exact Nat.xor_comm _ _
    rw [hdelta, swap_zobrist_split zt b, Nat.xor_assoc, Nat.xor_self, Nat.xor_zero]
  apply Board.ext
  · funext c
    show ((b.cells c).negated).negated = b.cells c
    exact negated_negated _
  · rfl
  · rfl
  · rfl
  · exact player_neg_neg b.player_to_move
  · exact Bool.not_not b.swapped
  · exact hz
  · rfl
  · show -(-b.score) = b.score
    exact neg_neg b.score
  · rfl
  · rfl

/-! ### Membership facts for `with_interaction` -/

theorem mem_with_interaction {p id : Nat} {int : Interaction} :
    p ∈ with_interaction id int ↔ p < NUM_PIECES ∧ get_association id p = int := by
  simp [with_interaction]

theorem with_interaction_subset_range (id : Nat) (int : Interaction) :
    with_interaction id int ⊆ Finset.range NUM_PIECES := by
  intro p hp
  simp only [Finset.mem_range]
  exact (mem_with_interaction.mp hp).1

theorem null_move_not_mem_with_interaction (id : Nat) (int : Interaction) :
    NULL_MOVE ∉ with_interaction id int := by
  intro h
  have := (mem_with_interaction.mp h).1
  simp [NULL_MOVE] at this

/-! ### Spec-side formulation of the pairwise interaction (for C4) -/

/-- Orthogonal adjacency of two cells, as the claim words it. -/
def orthAdjacent (a b : OffsetCoord) : Prop :=
  (a.rows - b.rows).natAbs + (a.cols - b.cols).natAbs = 1

instance (a b : OffsetCoord) : Decidable (orthAdjacent a b) := by
  unfold orthAdjacent; infer_instance

/-- "The union of the two coordinate sets fully contains some 2x2 square":
some top-left corner `a` has its whole 2x2 block inside the set. -/
def fullSquareIn (S : Finset OffsetCoord) : Prop :=
  ∃ a : OffsetCoord,
    ({a, a + ⟨0, 1⟩, a + ⟨1, 0⟩, a + ⟨1, 1⟩} : Finset OffsetCoord) ⊆ S

instance (S : Finset OffsetCoord) : Decidable (fullSquareIn S) :=
  decidable_of_iff
    (∃ a ∈ S, (a + ⟨0, 1⟩) ∈ S ∧ (a + ⟨1, 0⟩) ∈ S ∧ (a + ⟨1, 1⟩) ∈ S) (by
      constructor
      · rintro ⟨a, ha, h1, h2, h3⟩
        exact ⟨a, by simp [Finset.insert_subset_iff, ha, h1, h2, h3]⟩
      · rintro ⟨a, hsub⟩
        simp only [Finset.insert_subset_iff, Finset.singleton_subset_iff] at hsub
        exact ⟨a, hsub.1, hsub.2.1, hsub.2.2.1, hsub.2.2.2⟩)

/-- The claim's chain of conditions for a pair of piece ids, over the
coordinate sets of the two pieces. -/
def specInteraction (i j : Nat) : Interaction :=
  let L := (forward i).real_coords_lazy.toFinset
  let R := (forward j).real_coords_lazy.toFinset
  if (L ∩ R).Nonempty then Interaction.Conflicting
  else if ∀ l ∈ L, ∀ r ∈ R, ¬ orthAdjacent l r then Interaction.Neutral
  else if (forward i).kind = (forward j).kind then Interaction.Conflicting
  else if fullSquareIn (L ∪ R) then Interaction.Conflicting
  else Interaction.Adjacent

theorem hasFullSquareL_iff (l : List OffsetCoord) :
    hasFullSquareL l = true ↔
      ∃ c ∈ l, (c + ⟨1, 0⟩) ∈ l ∧ (c + ⟨0, 1⟩) ∈ l ∧ (c + ⟨1, 1⟩) ∈ l := by
  simp [hasFullSquareL, List.any_eq_true, and_assoc]

theorem pairInteraction_eq_spec (i j : Nat) :
    pairInteraction (forward i) (forward j) = specInteraction i j := by
  unfold pairInteraction specInteraction
  set l := (forward i).real_coords_lazy with hl
  set r := (forward j).real_coords_lazy with hr
  have b1 : (l.any fun c => r.contains c) = true ↔ (l.toFinset ∩ r.toFinset).Nonempty := by
    simp [List.any_eq_true, Finset.Nonempty, Finset.mem_inter, And.comm]
  have b2 : (l.any fun a => r.any fun b => b.neighbours a) = true ↔
      ¬ ∀ x ∈ l.toFinset, ∀ y ∈ r.toFinset, ¬ orthAdjacent x y := by
    simp only [List.any_eq_true, List.mem_toFinset, not_forall]
    constructor
    · rintro ⟨a, ha, b, hb, hn⟩
      refine ⟨a, ha, b, hb, ?_⟩
      simp only [OffsetCoord.neighbours, OffsetCoord.manhattan, beq_iff_eq] at hn
      unfold orthAdjacent
      omega
    · rintro ⟨a, ha, b, hb, hn⟩
      refine ⟨a, ha, b, hb, ?_⟩
      simp only [not_not] at hn
      unfold orthAdjacent at hn
      simp only [OffsetCoord.neighbours, OffsetCoord.manhattan, beq_iff_eq]
      omega
  have b4 : hasFullSquareL (l ++ r) = true ↔ fullSquareIn (l.toFinset ∪ r.toFinset) := by
    rw [hasFullSquareL_iff]
    constructor
    · rintro ⟨c, hc, h1, h2, h3⟩
      refine ⟨c, ?_⟩
      intro x hx
      simp only [Finset.mem_insert, Finset.mem_singleton] at hx
      simp only [Finset.mem_union, List.mem_toFinset, ← List.mem_append]
      rcases hx with h | h | h | h <;> subst h
      · exact hc
      · exact h2
      · exact h1
      · exact h3
    · rintro ⟨a, hsub⟩
      have hm : ∀ x ∈ ({a, a + ⟨0, 1⟩, a + ⟨1, 0⟩, a + ⟨1, 1⟩} : Finset OffsetCoord),
          x ∈ l ++ r := by
        intro x hx
        have := hsub hx
        simp only [Finset.mem_union, List.mem_toFinset] at this
        simpa [List.mem_append] using this
      exact ⟨a, hm a (by simp), hm _ (by simp), hm _ (by simp), hm _ (by simp)⟩
  by_cases h1 : (l.toFinset ∩ r.toFinset).Nonempty
  · rw [if_pos (b1.mpr h1), if_pos h1]
  · rw [if_neg (fun hb => h1 (b1.mp hb)), if_neg h1]
    by_cases h2 : ∀ x ∈ l.toFinset, ∀ y ∈ r.toFinset, ¬ orthAdjacent x y
    · rw [if_pos, if_pos h2]
      simp only [Bool.not_eq_true']
      rw [← Bool.not_eq_true]
      exact fun hb => (b2.mp hb) h2
    · rw [if_neg, if_neg h2]
      swap
      · simp only [Bool.not_eq_true']
        rw [← Bool.not_eq_true, not_not]
        exact b2.mpr h2
      by_cases h3 : (forward i).kind = (forward j).kind
      · rw [if_pos h3, if_pos h3]
      · rw [if_neg h3, if_neg h3]
        by_cases h4 : fullSquareIn (l.toFinset ∪ r.toFinset)
        · rw [if_pos (b4.mpr h4), if_pos h4]
        · rw [if_neg (fun hb => h4 (b4.mp hb)), if_neg h4]

/-! ### Concrete instances used by counterexamples and witnesses -/

/-- Dummy zobrist cell table (the claims hold for any table contents). -/
def ztZero : Nat → Nat := fun _ => 0

/-- Dummy zobrist move table. -/
def zmZero : Nat → Nat := fun _ => 0

/-- A fresh board over the empty grid. -/
def board0 : Board := Board.new ztZero none

/-- The default grid carries no covered cell, so `Board::new` without a
symbol grid satisfies the symbol-grid premise. -/
theorem new_none_symbols (zt : Nat → Nat) :
    ∀ c : Coord, ((Board.new zt none).cells c).covered = false := by
  intro c
  show BoardCell.covered ((0 : Fin 256)) = false
  rfl

/-- The board after playing piece id 0 on `board0` (a play accepted by
`Board::play`, since slot 0 of the cache holds all of `0..NUM_PIECES`). -/
def board1 : Board := board0.play_unchecked zmZero (forward 0) 0

/-- `board1` after an accepted `pass`. -/
def board1s : Board := board1.swap ztZero

/-! ### Claim C6 -/

/-- C6 fails on the code: `Transform::enumerate` returns 4 distinct
transforms for the S kind, not the single one the spec claims for a
"full-symmetry" piece (the S tetromino only has 180-degree rotational
symmetry; its reflections are distinct). -/
theorem C6_counterexample :
    (Transform.enumerate Tile.S).length = 4 ∧
      (Transform.enumerate Tile.S).length ≠ 1 := by
  decide

/-- C6 (amended): for each tile kind, `Transform::enumerate` returns the
distinct canonical rotations and reflections of that kind, in the counts
8 for L, 2 for I, 4 for T and 4 for S. -/
theorem C6_enumerate_counts :
    ((Transform.enumerate Tile.L).length = 8 ∧ (Transform.enumerate Tile.L).Nodup) ∧
    ((Transform.enumerate Tile.I).length = 2 ∧ (Transform.enumerate Tile.I).Nodup) ∧
    ((Transform.enumerate Tile.T).length = 4 ∧ (Transform.enumerate Tile.T).Nodup) ∧
    ((Transform.enumerate Tile.S).length = 4 ∧ (Transform.enumerate Tile.S).Nodup) := by
  decide

/-! ### Claim C2 -/

/-- C2 fails on the code: after one play and one pass the board has
`swapped = true` and a one-move history, and `Board::pass` succeeds again
(the implementation checks only `history.len() == 1`, not `!swapped`). -/
theorem C2_counterexample :
    board1s.swapped = true ∧ board1s.history.length = 1 ∧
      (board1s.pass ztZero).1 = true :=
  ⟨rfl, rfl, rfl⟩

/-- C2 (amended): `Board::pass` succeeds (performing the swap) iff the
history contains exactly one move, regardless of `swapped`; in every other
state it returns an error and leaves the board unchanged. -/
theorem C2_pass_characterization (zt : Nat → Nat) (b : Board) :
    ((b.pass zt).1 = true ↔ b.history.length = 1) ∧
    (b.history.length = 1 → (b.pass zt).2 = b.swap zt) ∧
    (b.history.length ≠ 1 → (b.pass zt).2 = b) := by
  unfold Board.pass
  by_cases h : b.history.length = 1 <;> simp [h]

/-- Witness for C2's amended theorem at concrete inputs: after one play the
pass succeeds and swaps, and on the fresh board it fails and leaves the
board unchanged. -/
theorem C2_pass_characterization_witness :
    (board1.pass ztZero).2 = board1.swap ztZero ∧ (board0.pass ztZero).2 = board0 :=
  ⟨(C2_pass_characterization ztZero board1).2.1 rfl,
   (C2_pass_characterization ztZero board0).2.2 (by decide)⟩

/-! ### Claim C7 -/

/-- C7: on a board where the first pass is legal (exactly one move played
and not swapped), passing twice returns the board to the pre-pass state:
every field, the zobrist hash included, is restored (the swap is its own
inverse). -/
theorem C7_pass_involution (zt : Nat → Nat) (b : Board)
    (h1 : b.history.length = 1) (_hsw : b.swapped = false) :
    (b.pass zt).1 = true ∧ ((b.pass zt).2.pass zt).1 = true ∧
      ((b.pass zt).2.pass zt).2 = b := by
  unfold Board.pass
  simp [h1, swap_history, swap_swap]

/-- Witness for C7 at the concrete one-move board. -/
theorem C7_pass_involution_witness :
    ((board1.pass ztZero).2.pass ztZero).2 = board1 :=
  (C7_pass_involution ztZero board1 rfl rfl).2.2

/-! ### Claim C4 -/

/-- C4: for every pair of ids `i < j`, the association is computed by the
claim's chain (intersect, else not adjacent, else same kind, else joint 2x2
violation, else Adjacent), and `get_association` is symmetric. -/
theorem C4_association_spec (i j : Nat) (hij : i < j) (_hj : j < NUM_PIECES) :
    get_association i j = specInteraction i j ∧
      get_association j i = get_association i j := by
  constructor
  · unfold get_association
    rw [if_pos]
    · rw [Nat.min_eq_left hij.le, Nat.max_eq_right hij.le]
      exact pairInteraction_eq_spec i j
    · rw [Nat.min_eq_left hij.le, Nat.max_eq_right hij.le]
      exact hij
  · unfold get_association
    rw [Nat.min_comm j i, Nat.max_comm j i]

/-- Witness for C4 at the concrete pair of ids 0 and 1. -/
theorem C4_association_spec_witness :
    get_association 0 1 = specInteraction 0 1 ∧
      get_association 1 0 = get_association 0 1 :=
  C4_association_spec 0 1 (by decide) (by decide)

/-! ### Claim C5 -/

/-- C5: with an empty history, move generation returns exactly the ids
`0..NUM_PIECES`; with exactly one move `h0` played, it returns exactly the
ids whose interaction with `h0` is Adjacent, together with `NULL_MOVE` iff
`swapped` is false. -/
theorem C5_early_move_generation (b : Board) :
    (b.history = [] → b.valid_moves_set = Finset.range NUM_PIECES) ∧
    (∀ h0, b.history = [h0] →
      b.valid_moves_set =
        with_interaction h0 Interaction.Adjacent ∪
          (if b.swapped = false then {NULL_MOVE} else ∅) ∧
      (NULL_MOVE ∈ b.valid_moves_set ↔ b.swapped = false)) := by
  constructor
  · intro h
    simp [Board.valid_moves_set, h]
  · intro h0 hh
    simp only [Board.valid_moves_set, hh]
    by_cases hs : b.swapped = false
    · rw [if_pos hs, if_pos hs]
      constructor
      · rw [Finset.insert_eq, Finset.union_comm]
      · simp [hs]
    · rw [if_neg hs, if_neg hs]
      constructor
      · simp
      · simp only [Finset.union_empty] at *
        constructor
        · intro hm
          exact absurd hm (null_move_not_mem_with_interaction h0 Interaction.Adjacent)
        · intro h
          exact absurd h hs

/-- Witness for C5 at concrete boards: the fresh board (empty history) and
the board after one play. -/
theorem C5_early_move_generation_witness :
    board0.valid_moves_set = Finset.range NUM_PIECES ∧
      (NULL_MOVE ∈ board1.valid_moves_set ↔ board1.swapped = false) :=
  ⟨(C5_early_move_generation board0).1 rfl,
   ((C5_early_move_generation board1).2 0 rfl).2⟩

/-! ### Bulk facts about the piece catalog -/

/-- Well-formedness of one placement: all four real coordinates in bounds,
no duplicate coordinates, and no fully covered 2x2 within the piece. -/
def wellFormedPiece (p : Tetromino) : Bool :=
  p.in_bounds && nodupB p.real_coords_lazy && !hasFullSquareL p.real_coords_lazy

/-- The enumeration has exactly `NUM_PIECES` placements and every placement
is well-formed (a finite computation over the whole catalog). -/
theorem forward_facts :
    (forwardList.length == 1292 && forwardList.all wellFormedPiece) = true := by
  decide

theorem forwardList_length : forwardList.length = NUM_PIECES := by
  have h := (Bool.and_eq_true _ _).mp forward_facts
  exact Nat.eq_of_beq_eq_true h.1

theorem get_piece_eq (id : Nat) (h : id < NUM_PIECES) :
    get_piece id = some (forward id) := by
  have hl : id < forwardList.length := by rw [forwardList_length]; exact h
  unfold get_piece forward
  rw [List.get?_eq_get hl]
  rfl

theorem forward_mem (id : Nat) (h : id < NUM_PIECES) : forward id ∈ forwardList := by
  have hl : id < forwardList.length := by rw [forwardList_length]; exact h
  unfold forward
  rw [List.get?_eq_get hl]
  exact List.get_mem _ _ _

theorem forward_wf (id : Nat) (h : id < NUM_PIECES) :
    wellFormedPiece (forward id) = true := by
  have hall := (Bool.and_eq_true _ _).mp forward_facts
  exact (List.all_eq_true.mp hall.2) _ (forward_mem id h)

theorem nodupB_iff (l : List OffsetCoord) : nodupB l = true ↔ l.Nodup := by
  induction l with
  | nil => simp [nodupB]
  | cons x xs ih => simp [nodupB, List.nodup_cons, ih]

theorem wf_in_bounds {p : Tetromino} (h : wellFormedPiece p = true) :
    ∀ oc ∈ p.real_coords_lazy, oc.in_bounds_signed = true := by
  have := (Bool.and_eq_true _ _).mp ((Bool.and_eq_true _ _).mp h).1
  exact fun oc hoc => List.all_eq_true.mp this.1 oc hoc

theorem wf_nodup {p : Tetromino} (h : wellFormedPiece p = true) :
    p.real_coords_lazy.Nodup := by
  have := (Bool.and_eq_true _ _).mp ((Bool.and_eq_true _ _).mp h).1
  exact (nodupB_iff _).mp this.2

theorem wf_no_square {p : Tetromino} (h : wellFormedPiece p = true) :
    hasFullSquareL p.real_coords_lazy = false := by
  have := ((Bool.and_eq_true _ _).mp h).2
  simpa using this

/-! ### The valid-move cache across operations -/

theorem set_lits_cache (b : Board) (c : Coord) (l : Option Tile) :
    (b.set_lits_unchecked c l).valid_moves_cache = b.valid_moves_cache := rfl

theorem apply_piece_cache (k : Tile) (cl : List OffsetCoord) (b : Board) :
    (apply_piece_cells k cl b).valid_moves_cache = b.valid_moves_cache := by
  induction cl generalizing b with
  | nil => rfl
  | cons c cs ih => exact ih _

theorem play_unchecked_cache (zm : Nat → Nat) (b : Board) (t : Tetromino) (id : Nat) :
    (b.play_unchecked zm t id).valid_moves_cache = b.valid_moves_cache := by
  show (apply_piece_cells _ _ _).valid_moves_cache = _
  rw [apply_piece_cache]

theorem swap_cache (zt : Nat → Nat) (b : Board) :
    (b.swap zt).valid_moves_cache = b.valid_moves_cache := rfl

/-- Nothing after construction ever writes the cache: every reachable state
carries the initial cache, whose only populated slot is index 0. -/
theorem reachable_cache {zt zm : Nat → Nat} {b : Board} (hb : Reachable zt zm b) :
    b.valid_moves_cache = initial_cache := by
  induction hb with
  | init symbols hsym => cases symbols <;> rfl
  | step_play b mv _ _ _ ih => rw [play_unchecked_cache]; exact ih
  | step_pass b _ _ ih => rw [swap_cache]; exact ih

/-- With the initial cache, the accessor returns the full range at history
length 0 and panics (`none`) at any other length. -/
theorem valid_moves_initial (b : Board) (h : b.valid_moves_cache = initial_cache) :
    b.valid_moves =
      if b.history.length = 0 then some (Finset.range NUM_PIECES) else none := by
  unfold Board.valid_moves
  rw [h]
  have hic : initial_cache =
      some (Finset.range NUM_PIECES) :: List.replicate 20 none := rfl
  rcases hlen : b.history.length with _ | n
  · rw [hic]
    rfl
  · rw [hic, if_neg (Nat.succ_ne_zero n)]
    show (match (List.replicate 20 (none : Option (Finset Nat))).get? n with
      | some (some s) => some s
      | _ => none) = none
    cases e : (List.replicate 20 (none : Option (Finset Nat))).get? n with
    | none => rfl
    | some x =>
      have hx : x ∈ List.replicate 20 (none : Option (Finset Nat)) := List.get?_mem e
      rw [List.eq_of_mem_replicate hx]

/-! ### Claim C3 -/

/-- C3 fails on the code: at the fresh board the cached accessor agrees
with the recomputation, but after a single play the cache slot for history
length 1 was never populated (`play_unchecked` refreshes a cache field that
does not exist in the `Board` struct), so `valid_moves()` unwraps `None`
and panics while `valid_moves_set()` returns a set. -/
theorem C3_cache_stale :
    board0.valid_moves = some board0.valid_moves_set ∧
      board1.valid_moves = none :=
  ⟨rfl, rfl⟩

/-! ### Claim C9 -/

/-- C9 fails on the code: in the state after one play, `Board::play`
panics inside `valid_moves()` (the cache `unwrap`) instead of returning
`Ok` or `IllegalMove`; at the fresh board, where the cache slot exists, an
illegal id is correctly rejected without mutating the board. -/
theorem C9_play_panics :
    Board.play zmZero board1 5 = none ∧
      Board.play zmZero board0 NULL_MOVE = some (false, board0) :=
  ⟨rfl, rfl⟩

/-! ### Claim C10 -/

/-- C10 fails as stated: in a `can_swap` state (one move played, not
swapped) `NULL_MOVE` is not a member of `valid_moves()` — the accessor
panics on the unpopulated cache slot, and `play(NULL_MOVE)` panics there
too, before any forward-table read. -/
theorem C10_counterexample :
    board1.can_swap = true ∧ board1.valid_moves = none ∧
      Board.play zmZero board1 NULL_MOVE = none :=
  ⟨rfl, rfl, rfl⟩

/-- C10 (amended): at every reachable state, any id that passes the
legality check of `Board::play` (membership in the set `valid_moves()`
returned) is below `NUM_PIECES`, so the `get_piece` lookup stays within
the 1292-entry forward table.  (In a `can_swap` state the check itself
panics on the unpopulated cache, so `play(NULL_MOVE)` never reaches the
table read.) -/
theorem C10_play_ids_in_bounds (zt zm : Nat → Nat) (b : Board)
    (hb : Reachable zt zm b) (s : Finset Nat) (mv : Nat)
    (hs : b.valid_moves = some s) (hmv : mv ∈ s) :
    mv < NUM_PIECES ∧ (get_piece mv).isSome = true := by
  have hv := valid_moves_initial b (reachable_cache hb)
  rw [hs] at hv
  by_cases h0 : b.history.length = 0
  · rw [if_pos h0] at hv
    injection hv with hv
    subst hv
    have hlt : mv < NUM_PIECES := Finset.mem_range.mp hmv
    refine ⟨hlt, ?_⟩
    rw [get_piece_eq mv hlt]
    rfl
  · rw [if_neg h0] at hv
    exact absurd hv (by simp)

/-- Witness for C10's amended theorem at the fresh board and move id 0. -/
theorem C10_play_ids_in_bounds_witness :
    0 < NUM_PIECES ∧ (get_piece 0).isSome = true :=
  C10_play_ids_in_bounds ztZero zmZero board0 (Reachable.init none (new_none_symbols ztZero))
    (Finset.range NUM_PIECES) 0 rfl (Finset.mem_range.mpr (by decide))

/-! ### Field lemmas for `set_lits_unchecked` and the play fold -/

theorem set_lits_history (b : Board) (x : Coord) (l : Option Tile) :
    (b.set_lits_unchecked x l).history = b.history := rfl

theorem set_lits_zobrist (b : Board) (x : Coord) (l : Option Tile) :
    (b.set_lits_unchecked x l).zobrist_hash = b.zobrist_hash := rfl

theorem set_lits_swapped (b : Board) (x : Coord) (l : Option Tile) :
    (b.set_lits_unchecked x l).swapped = b.swapped := rfl

theorem set_lits_cell_value (b : Board) (x : Coord) (l : Option Tile) (c : Coord) :
    ((b.set_lits_unchecked x l).cells c).cell_value = (b.cells c).cell_value := by
  simp only [Board.set_lits_unchecked]
  by_cases h : c = x
  · subst h
    simp [cell_value_with_lits]
  · simp [h]

theorem apply_piece_history (k : Tile) (cl : List OffsetCoord) (b : Board) :
    (apply_piece_cells k cl b).history = b.history := by
  induction cl generalizing b with
  | nil => rfl
  | cons c cs ih => exact ih _

theorem apply_piece_zobrist (k : Tile) (cl : List OffsetCoord) (b : Board) :
    (apply_piece_cells k cl b).zobrist_hash = b.zobrist_hash := by
  induction cl generalizing b with
  | nil => rfl
  | cons c cs ih => exact ih _

theorem apply_piece_swapped (k : Tile) (cl : List OffsetCoord) (b : Board) :
    (apply_piece_cells k cl b).swapped = b.swapped := by
  induction cl generalizing b with
  | nil => rfl
  | cons c cs ih => exact ih _

theorem apply_piece_cell_value (k : Tile) (cl : List OffsetCoord) (b : Board) (c : Coord) :
    ((apply_piece_cells k cl b).cells c).cell_value = (b.cells c).cell_value := by
  induction cl generalizing b with
  | nil => rfl
  | cons x xs ih =>
    show ((apply_piece_cells k xs _).cells c).cell_value = _
    rw [ih]
    exact set_lits_cell_value b _ _ c

theorem play_unchecked_history (zm : Nat → Nat) (b : Board) (t : Tetromino) (id : Nat) :
    (b.play_unchecked zm t id).history = b.history ++ [id] := by
  show (apply_piece_cells _ _ _).history ++ [id] = b.history ++ [id]
  rw [apply_piece_history]

theorem play_unchecked_zobrist (zm : Nat → Nat) (b : Board) (t : Tetromino) (id : Nat) :
    (b.play_unchecked zm t id).zobrist_hash = b.zobrist_hash ^^^ move_hash zm id := by
  show (apply_piece_cells _ _ _).zobrist_hash ^^^ move_hash zm id = _
  rw [apply_piece_zobrist]

theorem play_unchecked_swapped (zm : Nat → Nat) (b : Board) (t : Tetromino) (id : Nat) :
    (b.play_unchecked zm t id).swapped = b.swapped := by
  show (apply_piece_cells _ _ _).swapped = _
  rw [apply_piece_swapped]

theorem play_unchecked_cell_value (zm : Nat → Nat) (b : Board) (t : Tetromino)
    (id : Nat) (c : Coord) :
    ((b.play_unchecked zm t id).cells c).cell_value = (b.cells c).cell_value := by
  show ((apply_piece_cells _ _ _).cells c).cell_value = _
  rw [apply_piece_cell_value]

theorem cell_hash_congr (zt : Nat → Nat) (i j : Nat) {c1 c2 : BoardCell}
    (h : c1.cell_value = c2.cell_value) :
    cell_hash zt i j c1 = cell_hash zt i j c2 := by
  unfold cell_hash
  rw [h]

/-! ### Claim C8 -/

/-- C8: at every reachable state, the zobrist hash equals the XOR over all
100 cells of the cell hash of the current cell value, XORed with the XOR
over every move in the history of its move hash. -/
theorem C8_zobrist_invariant (zt zm : Nat → Nat) (b : Board) (hb : Reachable zt zm b) :
    b.zobrist_hash =
      xorOver allCoords (fun c => cell_hash zt c.row c.col (b.cells c)) ^^^
        xorOver b.history (move_hash zm) := by
  induction hb with
  | init symbols hsym =>
    cases symbols <;>
      simp [Board.new, xorOver, Nat.xor_zero, initial_zobrist_hash_eq]
  | step_play b mv hr hmem hnm ih =>
    rw [play_unchecked_zobrist, play_unchecked_history]
    have hcells :
        xorOver allCoords
            (fun c => cell_hash zt c.row c.col ((b.play_unchecked zm (forward mv) mv).cells c)) =
          xorOver allCoords (fun c => cell_hash zt c.row c.col (b.cells c)) :=
      xorOver_congr (fun c _ =>
        cell_hash_congr zt c.row c.col (play_unchecked_cell_value zm b (forward mv) mv c))
    rw [hcells, xorOver_append, ih]
    simp only [xorOver, Nat.xor_zero]
    rw [Nat.xor_assoc]
  | step_pass b hr hlen ih =>
    rw [swap_zobrist_split, ih, swap_history]
    have hneg :
        xorOver allCoords (fun c => cell_hash zt c.row c.col ((b.swap zt).cells c)) =
          xorOver allCoords (fun c => cell_hash zt c.row c.col (b.cells c)) ^^^
            xorOver allCoords (fun c =>
              cell_hash zt c.row c.col (b.cells c) ^^^
                cell_hash zt c.row c.col ((b.cells c).negated)) := by
      rw [← xorOver_xor]
      apply xorOver_congr
      intro c _
      show cell_hash zt c.row c.col ((b.cells c).negated) =
        cell_hash zt c.row c.col (b.cells c) ^^^
          (cell_hash zt c.row c.col (b.cells c) ^^^
            cell_hash zt c.row c.col ((b.cells c).negated))
      rw [Nat.xor_cancel_left]
    rw [hneg]
    simp [Nat.xor_assoc, Nat.xor_comm, xor_left_comm]

/-- Witness for C8 at the fresh board over the empty grid. -/
theorem C8_zobrist_invariant_witness :
    board0.zobrist_hash =
      xorOver allCoords (fun c => cell_hash ztZero c.row c.col (board0.cells c)) ^^^
        xorOver board0.history (move_hash zmZero) :=
  C8_zobrist_invariant ztZero zmZero board0 (Reachable.init none (new_none_symbols ztZero))

/-! ### Coordinate infrastructure for the foursquare invariant -/

theorem addOffset_def (c : Coord) (o : OffsetCoord) :
    c.addOffset o = ⟨(c.row : Int) + o.rows, (c.col : Int) + o.cols⟩ := rfl

theorem add_def (a b : OffsetCoord) :
    a + b = ⟨a.rows + b.rows, a.cols + b.cols⟩ := rfl

theorem in_bounds_signed_iff (oc : OffsetCoord) :
    oc.in_bounds_signed = true ↔ 0 ≤ oc.rows ∧ oc.rows < 10 ∧ 0 ≤ oc.cols ∧ oc.cols < 10 := by
  simp [OffsetCoord.in_bounds_signed, and_assoc]

theorem toOffset_coerce {oc : OffsetCoord} (h : oc.in_bounds_signed = true) :
    (oc.coerce).toOffset = oc := by
  rw [in_bounds_signed_iff] at h
  cases oc with
  | mk r c =>
    simp only [OffsetCoord.coerce, Coord.toOffset, OffsetCoord.mk.injEq] at *
    omega

theorem coerce_inj {o1 o2 : OffsetCoord} (h1 : o1.in_bounds_signed = true)
    (h2 : o2.in_bounds_signed = true) (h : o1.coerce = o2.coerce) : o1 = o2 := by
  rw [← toOffset_coerce h1, ← toOffset_coerce h2, h]

theorem coerce_bounds {oc : OffsetCoord} (h : oc.in_bounds_signed = true) :
    (oc.coerce).row < 10 ∧ (oc.coerce).col < 10 := by
  rw [in_bounds_signed_iff] at h
  simp only [OffsetCoord.coerce]
  omega

/-- The four cells of the 2x2 anchored (top-left) at `a`, mirroring
`FOURSQUARE_CELLS`. -/
def squareCells (a : Coord) : List Coord :=
  [⟨a.row, a.col⟩, ⟨a.row, a.col + 1⟩, ⟨a.row + 1, a.col⟩, ⟨a.row + 1, a.col + 1⟩]

theorem mem_squareCells {a x : Coord} :
    x ∈ squareCells a ↔
      (x.row = a.row ∨ x.row = a.row + 1) ∧ (x.col = a.col ∨ x.col = a.col + 1) := by
  cases a with | mk ar ac =>
  cases x with | mk xr xc =>
  simp only [squareCells, List.mem_cons, List.mem_singleton, List.not_mem_nil, or_false,
    Coord.mk.injEq]
  omega

theorem squareCells_nodup (a : Coord) : (squareCells a).Nodup := by
  cases a with | mk ar ac =>
  simp [squareCells, Coord.mk.injEq, not_or]

theorem mem_affected_anchors {c a : Coord} :
    a ∈ affected_anchors c ↔ a.row < 9 ∧ a.col < 9 ∧ c ∈ squareCells a := by
  rw [mem_squareCells]
  simp only [affected_anchors, List.mem_filterMap, ANCHOR_OFFSETS, List.mem_cons,
    List.mem_singleton, List.not_mem_nil, or_false]
  constructor
  · rintro ⟨δ, hδ, hf⟩
    rcases hδ with h | h | h | h <;> subst h <;>
    · rw [addOffset_def] at hf
      split at hf
      · next hp =>
          injection hf with hf
          subst hf
          simp only [OffsetCoord.in_foursquare_bounds_signed, Bool.and_eq_true,
            decide_eq_true_eq] at hp
          simp only [OffsetCoord.coerce]
          omega
      · exact absurd hf (by simp)
  · rintro ⟨h9r, h9c, hr | hr, hc | hc⟩
    · refine ⟨⟨0, 0⟩, by simp, ?_⟩
      rw [addOffset_def, if_pos, Option.some.injEq]
      · simp only [OffsetCoord.coerce, Coord.ext_iff]
        omega
      · simp only [OffsetCoord.in_foursquare_bounds_signed, Bool.and_eq_true,
          decide_eq_true_eq]
        omega
    · refine ⟨⟨0, -1⟩, by simp, ?_⟩
      rw [addOffset_def, if_pos, Option.some.injEq]
      · simp only [OffsetCoord.coerce, Coord.ext_iff]
        omega
      · simp only [OffsetCoord.in_foursquare_bounds_signed, Bool.and_eq_true,
          decide_eq_true_eq]
        omega
    · refine ⟨⟨-1, 0⟩, by simp, ?_⟩
      rw [addOffset_def, if_pos, Option.some.injEq]
      · simp only [OffsetCoord.coerce, Coord.ext_iff]
        omega
      · simp only [OffsetCoord.in_foursquare_bounds_signed, Bool.and_eq_true,
          decide_eq_true_eq]
        omega
    · refine ⟨⟨-1, -1⟩, by simp, ?_⟩
      rw [addOffset_def, if_pos, Option.some.injEq]
      · simp only [OffsetCoord.coerce, Coord.ext_iff]
        omega
      · simp only [OffsetCoord.in_foursquare_bounds_signed, Bool.and_eq_true,
          decide_eq_true_eq]
        omega

theorem checkFor_iff (f : FoursquareCounter) (c : Coord) (v : Nat) :
    f.checkFor c v = true ↔ ∃ a ∈ affected_anchors c, f a = v := by
  simp only [FoursquareCounter.checkFor, List.any_eq_true]
  constructor
  · rintro ⟨δ, hδ, hif⟩
    split at hif
    · next hp =>
        refine ⟨(c.addOffset δ).coerce, ?_, beq_iff_eq.mp hif⟩
        simp only [affected_anchors, List.mem_filterMap]
        exact ⟨δ, hδ, by rw [if_pos hp]⟩
    · exact absurd hif (by simp)
  · rintro ⟨a, ha, hv⟩
    simp only [affected_anchors, List.mem_filterMap] at ha
    obtain ⟨δ, hδ, hsome⟩ := ha
    refine ⟨δ, hδ, ?_⟩
    split at hsome
    · next hp =>
        injection hsome with hsome
        rw [if_pos hp, hsome, hv]
        exact beq_self_eq_true v
    · exact absurd hsome (by simp)

/-! ### Counting helpers -/

theorem countP_or_disjoint (l : List Coord) (p q : Coord → Bool)
    (h : ∀ c ∈ l, ¬(p c = true ∧ q c = true)) :
    l.countP (fun c => p c || q c) = l.countP p + l.countP q := by
  induction l with
  | nil => simp
  | cons x xs ih =>
    simp only [List.countP_cons]
    rw [ih (fun c hc => h c (by simp [hc]))]
    have hx := h x (by simp)
    by_cases hp : p x = true <;> by_cases hq : q x = true <;>
      simp [hp, hq] at * <;> omega

theorem countP_mem_card (l m : List Coord) (hl : l.Nodup) :
    (l.countP fun x => decide (x ∈ m)) = (l.toFinset ∩ m.toFinset).card := by
  rw [List.countP_eq_length_filter]
  have hnd := hl.filter (fun x => decide (x ∈ m))
  rw [← List.toFinset_card_of_nodup hnd, List.toFinset_filter]
  congr 1
  ext x
  simp [List.mem_toFinset]

theorem countP_mem_comm (l m : List Coord) (hl : l.Nodup) (hm : m.Nodup) :
    (l.countP fun x => decide (x ∈ m)) = m.countP (fun x => decide (x ∈ l)) := by
  rw [countP_mem_card l m hl, countP_mem_card m l hm, Finset.inter_comm]

/-! ### Covered cells and counters across the play fold -/

/-- Whether a tile covers the cell, on the live board. -/
def coveredAt (b : Board) (c : Coord) : Bool := (b.cells c).covered

/-- The four board cells a piece id occupies (the coerced real
coordinates). -/
def pieceCoords (id : Nat) : List Coord :=
  (forward id).real_coords_lazy.map OffsetCoord.coerce

theorem set_lits_covered (b : Board) (x : Coord) (k : Tile) (c : Coord) :
    coveredAt (b.set_lits_unchecked x (some k)) c = (coveredAt b c || c == x) := by
  simp only [coveredAt, Board.set_lits_unchecked]
  by_cases h : c = x
  · subst h
    simp [covered_with_lits_some]
  · simp [h]

theorem apply_piece_covered (k : Tile) (cl : List OffsetCoord) (b : Board) (c : Coord) :
    coveredAt (apply_piece_cells k cl b) c =
      (coveredAt b c || (cl.map OffsetCoord.coerce).contains c) := by
  induction cl generalizing b with
  | nil => simp [apply_piece_cells, List.contains]
  | cons x xs ih =>
    show coveredAt (apply_piece_cells k xs _) c = _
    rw [ih, set_lits_covered]
    simp only [List.map_cons]
    rw [List.contains_cons]
    rw [Bool.or_assoc]

theorem set_lits_foursquare (b : Board) (x : Coord) (k : Tile) (a : Coord) :
    (b.set_lits_unchecked x (some k)).foursquare_mask a =
      if a ∈ affected_anchors x then b.foursquare_mask a + 1 else b.foursquare_mask a := by
  simp only [Board.set_lits_unchecked, FoursquareCounter.update_unchecked]
  have hs := lits_value_with_lits_some (b.cells x) k
  by_cases h : a ∈ affected_anchors x
  · rw [if_pos h, if_pos h, if_pos hs]
  · rw [if_neg h, if_neg h]

theorem apply_piece_foursquare (k : Tile) (cl : List OffsetCoord) (b : Board) (a : Coord) :
    (apply_piece_cells k cl b).foursquare_mask a =
      b.foursquare_mask a +
        (cl.map OffsetCoord.coerce).countP (fun x => decide (a ∈ affected_anchors x)) := by
  induction cl generalizing b with
  | nil => simp [apply_piece_cells]
  | cons x xs ih =>
    show (apply_piece_cells k xs _).foursquare_mask a = _
    rw [ih, set_lits_foursquare]
    simp only [List.map_cons, List.countP_cons]
    by_cases h : a ∈ affected_anchors x.coerce
    · rw [if_pos h]
      simp [h]
      omega
    · rw [if_neg h]
      simp [h]

theorem foldl_update_foursquare (k : Tile) (cl : List OffsetCoord)
    (f : FoursquareCounter) (a : Coord) :
    (cl.foldl (fun ff c => ff.update_unchecked c.coerce (some k)) f) a =
      f a + (cl.map OffsetCoord.coerce).countP (fun x => decide (a ∈ affected_anchors x)) := by
  induction cl generalizing f with
  | nil => simp
  | cons x xs ih =>
    show (xs.foldl _ (FoursquareCounter.update_unchecked f x.coerce (some k))) a = _
    rw [ih]
    simp only [FoursquareCounter.update_unchecked, Option.isSome_some, if_true,
      List.map_cons, List.countP_cons]
    by_cases h : a ∈ affected_anchors x.coerce
    · rw [if_pos h]
      simp [h]
      omega
    · rw [if_neg h]
      simp [h]
/-! ### Piece-level consequences of the interaction table -/

theorem contains_eq_decide_mem {α : Type} [DecidableEq α] (l : List α) (x : α) :
    l.contains x = decide (x ∈ l) := by
  by_cases h : x ∈ l <;> simp [h]

theorem coerce_toOffset (c : Coord) : (c.toOffset).coerce = c := by
  cases c with
  | mk r k =>
    simp only [Coord.toOffset, OffsetCoord.coerce, Coord.mk.injEq]
    omega

theorem pieceCoords_nodup (id : Nat) (h : id < NUM_PIECES) : (pieceCoords id).Nodup := by
  have hwf := forward_wf id h
  have hib := wf_in_bounds hwf
  exact List.Nodup.map_on
    (fun x hx y hy hxy => coerce_inj (hib x hx) (hib y hy) hxy) (wf_nodup hwf)

theorem hasFullSquareL_perm (l r : List OffsetCoord) :
    hasFullSquareL (l ++ r) = hasFullSquareL (r ++ l) := by
  rw [Bool.eq_iff_iff, hasFullSquareL_iff, hasFullSquareL_iff]
  constructor <;>
  · rintro ⟨c, hc, h1, h2, h3⟩
    refine ⟨c, ?_, ?_, ?_, ?_⟩ <;> simp only [List.mem_append] at * <;> tauto

/-- If every cell of the 2x2 at `a` is the coercion of a member of an
in-bounds offset list, the list contains a full 2x2. -/
theorem square_in_offsets {L : List OffsetCoord}
    (hib : ∀ oc ∈ L, oc.in_bounds_signed = true) {a : Coord}
    (hmem : ∀ x ∈ squareCells a, ∃ oc ∈ L, oc.coerce = x) :
    hasFullSquareL L = true := by
  rw [hasFullSquareL_iff]
  obtain ⟨o1, ho1, he1⟩ := hmem ⟨a.row, a.col⟩ (by simp [squareCells])
  obtain ⟨o2, ho2, he2⟩ := hmem ⟨a.row, a.col + 1⟩ (by simp [squareCells])
  obtain ⟨o3, ho3, he3⟩ := hmem ⟨a.row + 1, a.col⟩ (by simp [squareCells])
  obtain ⟨o4, ho4, he4⟩ := hmem ⟨a.row + 1, a.col + 1⟩ (by simp [squareCells])
  have e1 : o1 = Coord.toOffset ⟨a.row, a.col⟩ := by
    rw [← toOffset_coerce (hib o1 ho1), he1]
  have e2 : o2 = Coord.toOffset ⟨a.row, a.col + 1⟩ := by
    rw [← toOffset_coerce (hib o2 ho2), he2]
  have e3 : o3 = Coord.toOffset ⟨a.row + 1, a.col⟩ := by
    rw [← toOffset_coerce (hib o3 ho3), he3]
  have e4 : o4 = Coord.toOffset ⟨a.row + 1, a.col + 1⟩ := by
    rw [← toOffset_coerce (hib o4 ho4), he4]
  refine ⟨o1, ho1, ?_, ?_, ?_⟩
  · have : o1 + ⟨1, 0⟩ = o3 := by
      rw [e1, e3]
      simp only [Coord.toOffset, add_def, OffsetCoord.mk.injEq]
      omega
    rw [this]
    exact ho3
  · have : o1 + ⟨0, 1⟩ = o2 := by
      rw [e1, e2]
      simp only [Coord.toOffset, add_def, OffsetCoord.mk.injEq]
      omega
    rw [this]
    exact ho2
  · have : o1 + ⟨1, 1⟩ = o4 := by
      rw [e1, e4]
      simp only [Coord.toOffset, add_def, OffsetCoord.mk.injEq]
      omega
    rw [this]
    exact ho4

theorem get_association_self (i : Nat) : get_association i i = Interaction.Conflicting := by
  unfold get_association
  simp

theorem get_association_cases {i j : Nat} (hne : i ≠ j) :
    get_association i j = pairInteraction (forward (min i j)) (forward (max i j)) := by
  unfold get_association
  rw [if_pos (by omega)]

theorem pairInteraction_ne_conflicting {p q : Tetromino}
    (h : pairInteraction p q ≠ Interaction.Conflicting) :
    ∀ oc ∈ p.real_coords_lazy, oc ∉ q.real_coords_lazy := by
  intro oc hocp hocq
  apply h
  unfold pairInteraction
  rw [if_pos]
  exact List.any_eq_true.mpr ⟨oc, hocp, by simp [hocq]⟩

theorem pairInteraction_adjacent_no_square {p q : Tetromino}
    (h : pairInteraction p q = Interaction.Adjacent) :
    hasFullSquareL (p.real_coords_lazy ++ q.real_coords_lazy) = false := by
  unfold pairInteraction at h
  by_cases g1 : (p.real_coords_lazy.any fun c => q.real_coords_lazy.contains c) = true
  · rw [if_pos g1] at h
    cases h
  · rw [if_neg g1] at h
    by_cases g2 : (! p.real_coords_lazy.any fun a => q.real_coords_lazy.any
        fun b => b.neighbours a) = true
    · rw [if_pos g2] at h
      cases h
    · rw [if_neg g2] at h
      by_cases g3 : p.kind = q.kind
      · rw [if_pos g3] at h
        cases h
      · rw [if_neg g3] at h
        by_cases g4 : hasFullSquareL (p.real_coords_lazy ++ q.real_coords_lazy) = true
        · rw [if_pos g4] at h
          cases h
        · simpa using g4

theorem get_association_adjacent_no_square {i j : Nat}
    (hadj : get_association i j = Interaction.Adjacent) :
    hasFullSquareL ((forward i).real_coords_lazy ++ (forward j).real_coords_lazy) = false := by
  have hne : i ≠ j := by
    intro he
    subst he
    rw [get_association_self] at hadj
    cases hadj
  rw [get_association_cases hne] at hadj
  have hmm := pairInteraction_adjacent_no_square hadj
  rcases Nat.lt_or_ge i j with hij | hij
  · rwa [Nat.min_eq_left hij.le, Nat.max_eq_right hij.le] at hmm
  · have hji : j < i := by omega
    rw [Nat.min_eq_right hji.le, Nat.max_eq_left hji.le] at hmm
    rwa [hasFullSquareL_perm] at hmm

theorem assoc_disjoint_coords {hid mv : Nat} (hh : hid < NUM_PIECES) (hm : mv < NUM_PIECES)
    (hne : get_association hid mv ≠ Interaction.Conflicting) :
    ∀ x ∈ pieceCoords hid, x ∉ pieceCoords mv := by
  have hne2 : hid ≠ mv := by
    intro he
    subst he
    exact hne (get_association_self hid)
  rw [get_association_cases hne2] at hne
  have hoff : ∀ oc ∈ (forward hid).real_coords_lazy, oc ∉ (forward mv).real_coords_lazy := by
    rcases Nat.lt_or_ge hid mv with hij | hij
    · rw [Nat.min_eq_left hij.le, Nat.max_eq_right hij.le] at hne
      exact pairInteraction_ne_conflicting hne
    · have hji : mv < hid := by omega
      rw [Nat.min_eq_right hji.le, Nat.max_eq_left hji.le] at hne
      have := pairInteraction_ne_conflicting hne
      intro oc hocp hocq
      exact this oc hocq hocp
  intro x hx hx2
  simp only [pieceCoords, List.mem_map] at hx hx2
  obtain ⟨o1, ho1, he1⟩ := hx
  obtain ⟨o2, ho2, he2⟩ := hx2
  have hib1 := wf_in_bounds (forward_wf hid hh) o1 ho1
  have hib2 := wf_in_bounds (forward_wf mv hm) o2 ho2
  have heq : o1 = o2 := coerce_inj hib1 hib2 (he1.trans he2.symm)
  subst heq
  exact hoff o1 ho1 ho2

/-! ### Branch equations for `valid_moves_set` -/

theorem valid_moves_set_nil {b : Board} (h : b.history = []) :
    b.valid_moves_set = Finset.range NUM_PIECES := by
  unfold Board.valid_moves_set
  rw [h]

theorem valid_moves_set_single {b : Board} {h0 : Nat} (h : b.history = [h0]) :
    b.valid_moves_set =
      if b.swapped = false then insert NULL_MOVE (with_interaction h0 Interaction.Adjacent)
      else with_interaction h0 Interaction.Adjacent := by
  unfold Board.valid_moves_set
  rw [h]

theorem valid_moves_set_big {b : Board} {h0 h1 : Nat} {rest : List Nat}
    (h : b.history = h0 :: h1 :: rest) :
    b.valid_moves_set =
      ((((h0 :: h1 :: rest).toFinset.biUnion
            (fun p => with_interaction p Interaction.Adjacent)) \
          ((h0 :: h1 :: rest).toFinset.biUnion
            (fun p => with_interaction p Interaction.Conflicting))) \
        (h0 :: h1 :: rest).toFinset).filter (fun p => b.piece_filter p = true) := by
  unfold Board.valid_moves_set
  rw [h]

/-- An accepted non-pass move is an id below `NUM_PIECES`. -/
theorem valid_moves_set_lt {b : Board} {mv : Nat} (hmem : mv ∈ b.valid_moves_set)
    (hnm : mv ≠ NULL_MOVE) : mv < NUM_PIECES := by
  rcases hh : b.history with _ | ⟨h0, _ | ⟨h1, rest⟩⟩
  · rw [valid_moves_set_nil hh] at hmem
    exact Finset.mem_range.mp hmem
  · rw [valid_moves_set_single hh] at hmem
    by_cases hs : b.swapped = false
    · rw [if_pos hs] at hmem
      rcases Finset.mem_insert.mp hmem with he | hmem2
      · exact absurd he hnm
      · exact (mem_with_interaction.mp hmem2).1
    · rw [if_neg hs] at hmem
      exact (mem_with_interaction.mp hmem).1
  · rw [valid_moves_set_big hh] at hmem
    have h1 := (Finset.mem_filter.mp hmem).1
    have h2 := (Finset.mem_sdiff.mp h1).1
    have h3 := (Finset.mem_sdiff.mp h2).1
    obtain ⟨p, _, hp⟩ := Finset.mem_biUnion.mp h3
    exact (mem_with_interaction.mp hp).1

/-- An accepted non-pass move does not conflict with any played piece. -/
theorem valid_moves_set_not_conflicting {b : Board} {mv : Nat}
    (hmem : mv ∈ b.valid_moves_set) (hnm : mv ≠ NULL_MOVE) (hm : mv < NUM_PIECES) :
    ∀ hid ∈ b.history, get_association hid mv ≠ Interaction.Conflicting := by
  rcases hh : b.history with _ | ⟨h0, _ | ⟨h1, rest⟩⟩
  · intro hid hin
    exact absurd hin (by simp)
  · intro hid hin
    have he : hid = h0 := by simpa using hin
    subst he
    rw [valid_moves_set_single hh] at hmem
    have hadj : mv ∈ with_interaction hid Interaction.Adjacent := by
      by_cases hs : b.swapped = false
      · rw [if_pos hs] at hmem
        rcases Finset.mem_insert.mp hmem with he | hmem2
        · exact absurd he hnm
        · exact hmem2
      · rw [if_neg hs] at hmem
        exact hmem
    rw [(mem_with_interaction.mp hadj).2]
    intro hcon
    cases hcon
  · intro hid hin
    rw [valid_moves_set_big hh] at hmem
    have h1 := (Finset.mem_filter.mp hmem).1
    have h2 := (Finset.mem_sdiff.mp h1).1
    have hnc := (Finset.mem_sdiff.mp h2).2
    intro hcon
    apply hnc
    apply Finset.mem_biUnion.mpr
    refine ⟨hid, ?_, mem_with_interaction.mpr ⟨hm, hcon⟩⟩
    rw [List.mem_toFinset]
    exact hin

/-- On a one-move board, an accepted non-pass move is Adjacent to the
played piece. -/
theorem valid_moves_set_one {b : Board} {h0 mv : Nat} (hh : b.history = [h0])
    (hmem : mv ∈ b.valid_moves_set) (hnm : mv ≠ NULL_MOVE) :
    get_association h0 mv = Interaction.Adjacent := by
  rw [valid_moves_set_single hh] at hmem
  have hadj : mv ∈ with_interaction h0 Interaction.Adjacent := by
    by_cases hs : b.swapped = false
    · rw [if_pos hs] at hmem
      rcases Finset.mem_insert.mp hmem with he | hmem2
      · exact absurd he hnm
      · exact hmem2
    · rw [if_neg hs] at hmem
      exact hmem
  exact (mem_with_interaction.mp hadj).2

/-- On a long board, an accepted move passes the bag-and-foursquare
filter. -/
theorem valid_moves_set_filter {b : Board} {h0 h1 mv : Nat} {rest : List Nat}
    (hh : b.history = h0 :: h1 :: rest) (hmem : mv ∈ b.valid_moves_set) :
    b.piece_filter mv = true := by
  rw [valid_moves_set_big hh] at hmem
  exact (Finset.mem_filter.mp hmem).2
/-! ### Small counting lemmas (self-contained) -/

theorem countP_congr_mem {l : List Coord} {p q : Coord → Bool}
    (h : ∀ x ∈ l, p x = q x) : l.countP p = l.countP q := by
  induction l with
  | nil => rfl
  | cons x xs ih =>
    simp only [List.countP_cons]
    rw [h x (by simp), ih (fun y hy => h y (by simp [hy]))]

/-! ### Projections of `play_unchecked` for coverage and counters -/

theorem play_covered (zm : Nat → Nat) (b : Board) (t : Tetromino) (id : Nat) (c : Coord) :
    coveredAt (b.play_unchecked zm t id) c
      = (coveredAt b c || (t.real_coords_lazy.map OffsetCoord.coerce).contains c) :=
  apply_piece_covered t.kind t.real_coords_lazy
    { b with piece_bag := fun k => if k = t.kind then b.piece_bag k - 1 else b.piece_bag k } c

theorem play_foursquare_eq (zm : Nat → Nat) (b : Board) (t : Tetromino) (id : Nat) (a : Coord) :
    (b.play_unchecked zm t id).foursquare_mask a
      = b.foursquare_mask a +
          (t.real_coords_lazy.map OffsetCoord.coerce).countP
            (fun x => decide (a ∈ affected_anchors x)) :=
  apply_piece_foursquare t.kind t.real_coords_lazy
    { b with piece_bag := fun k => if k = t.kind then b.piece_bag k - 1 else b.piece_bag k } a

/-- Counting a piece's contribution at an in-bounds anchor equals counting
the piece's cells inside that anchor's 2x2. -/
theorem piece_count_bridge {mv : Nat} (hm : mv < NUM_PIECES) {a : Coord}
    (h9r : a.row < 9) (h9c : a.col < 9) :
    (pieceCoords mv).countP (fun x => decide (a ∈ affected_anchors x))
      = (squareCells a).countP (fun x => decide (x ∈ pieceCoords mv)) := by
  have hc : ∀ x ∈ pieceCoords mv,
      (decide (a ∈ affected_anchors x) : Bool) = decide (x ∈ squareCells a) := by
    intro x _
    have hiff : a ∈ affected_anchors x ↔ x ∈ squareCells a := by
      rw [mem_affected_anchors]
      constructor
      · rintro ⟨_, _, h⟩
        exact h
      · intro h
        exact ⟨h9r, h9c, h⟩
    simp [hiff]
  rw [countP_congr_mem hc,
    countP_mem_comm _ _ (pieceCoords_nodup mv hm) (squareCells_nodup a)]

/-- A candidate that passes the filter completes no 2x2 on the simulated
counter. -/
theorem piece_filter_no_four {b : Board} {mv : Nat} (hfil : b.piece_filter mv = true) :
    ∀ oc ∈ (forward mv).real_coords_lazy,
      FoursquareCounter.any
        ((forward mv).real_coords_lazy.foldl
          (fun f c => f.update_unchecked c.coerce (some (forward mv).kind))
          b.foursquare_mask) oc.coerce = false := by
  unfold Board.piece_filter at hfil
  by_cases hbag : (b.piece_bag (get_kind mv) == 0) = true
  · rw [if_pos hbag] at hfil
    cases hfil
  · rw [if_neg hbag] at hfil
    have hfil2 : (!(forward mv).real_coords_lazy.any
        (fun c => FoursquareCounter.any
          ((forward mv).real_coords_lazy.foldl
            (fun f c => FoursquareCounter.update_unchecked f c.coerce (some (forward mv).kind))
            b.foursquare_mask) c.coerce)) = true := hfil
    intro oc hoc
    by_contra hcf
    rw [Bool.not_eq_false] at hcf
    have hany : ((forward mv).real_coords_lazy.any
        (fun c => FoursquareCounter.any
          ((forward mv).real_coords_lazy.foldl
            (fun f c => FoursquareCounter.update_unchecked f c.coerce (some (forward mv).kind))
            b.foursquare_mask) c.coerce)) = true :=
      List.any_eq_true.mpr ⟨oc, hoc, hcf⟩
    rw [hany] at hfil2
    exact absurd hfil2 (by decide)

/-! ### The foursquare invariant -/

/-- The inductive invariant behind the foursquare law: the history holds
in-range ids, the covered cells are exactly the cells of the played
pieces, the counter tracks the population of every in-bounds 2x2, and no
2x2 is fully covered. -/
structure Inv (b : Board) : Prop where
  hist_lt : ∀ h ∈ b.history, h < NUM_PIECES
  covered_iff : ∀ c : Coord, coveredAt b c = true ↔ ∃ h ∈ b.history, c ∈ pieceCoords h
  counts : ∀ a : Coord, a.row < 9 → a.col < 9 →
    b.foursquare_mask a = (squareCells a).countP (fun c => coveredAt b c)
  nofull : ∀ a : Coord, a.row < 9 → a.col < 9 →
    ¬ (∀ c ∈ squareCells a, coveredAt b c = true)

theorem new_history (zt : Nat → Nat) (symbols : Option Grid) :
    (Board.new zt symbols).history = [] := by
  cases symbols <;> rfl

theorem new_foursquare (zt : Nat → Nat) (symbols : Option Grid) (a : Coord) :
    (Board.new zt symbols).foursquare_mask a = 0 := by
  cases symbols <;> rfl

theorem inv_init (zt : Nat → Nat) (symbols : Option Grid)
    (hsym : ∀ c : Coord, ((Board.new zt symbols).cells c).covered = false) :
    Inv (Board.new zt symbols) := by
  refine ⟨?_, ?_, ?_, ?_⟩
  · intro h hh
    rw [new_history] at hh
    exact absurd hh (List.not_mem_nil h)
  · intro c
    constructor
    · intro hcov
      unfold coveredAt at hcov
      rw [hsym] at hcov
      cases hcov
    · rintro ⟨h, hh, _⟩
      rw [new_history] at hh
      exact absurd hh (List.not_mem_nil h)
  · intro a _ _
    rw [new_foursquare]
    symm
    rw [List.countP_eq_zero]
    intro c _
    unfold coveredAt
    rw [hsym]
    simp
  · intro a _ _ hall
    have h1 := hall ⟨a.row, a.col⟩ (by simp [squareCells])
    unfold coveredAt at h1
    rw [hsym] at h1
    cases h1

theorem inv_swap (zt : Nat → Nat) (b : Board) (hI : Inv b) : Inv (b.swap zt) := by
  have hcov : ∀ c, coveredAt (b.swap zt) c = coveredAt b c := by
    intro c
    show ((b.cells c).negated).covered = (b.cells c).covered
    exact covered_negated _
  refine ⟨?_, ?_, ?_, ?_⟩
  · intro h hh
    rw [swap_history] at hh
    exact hI.hist_lt h hh
  · intro c
    rw [hcov, swap_history]
    exact hI.covered_iff c
  · intro a h9r h9c
    show b.foursquare_mask a = _
    rw [hI.counts a h9r h9c]
    exact countP_congr_mem (fun c _ => (hcov c).symm)
  · intro a h9r h9c hall
    apply hI.nofull a h9r h9c
    intro c hc
    rw [← hcov c]
    exact hall c hc

theorem countP_le_len (l : List Coord) (p : Coord → Bool) : l.countP p ≤ l.length := by
  induction l with
  | nil => simp
  | cons x xs ih =>
    simp only [List.countP_cons, List.length_cons]
    split <;> omega

theorem countP_lt_of_mem_false {l : List Coord} {p : Coord → Bool} {x : Coord}
    (hx : x ∈ l) (hpx : p x = false) : l.countP p < l.length := by
  induction l with
  | nil => cases hx
  | cons y ys ih =>
    simp only [List.countP_cons, List.length_cons]
    rcases List.mem_cons.mp hx with he | hm
    · subst he
      rw [hpx]
      have := countP_le_len ys p
      simp
      omega
    · have h1 := ih hm
      have h2 : (if p y = true then 1 else 0) ≤ 1 := by split <;> omega
      omega

theorem exists_of_countP_pos {l : List Coord} {p : Coord → Bool}
    (h : 0 < l.countP p) : ∃ x ∈ l, p x = true := by
  induction l with
  | nil => simp [List.countP_nil] at h
  | cons y ys ih =>
    rw [List.countP_cons] at h
    by_cases hy : p y = true
    · exact ⟨y, by simp, hy⟩
    · rw [if_neg hy, Nat.add_zero] at h
      obtain ⟨x, hx, hpx⟩ := ih h
      exact ⟨x, by simp [hx], hpx⟩

theorem countP_all_four {a : Coord} {p : Coord → Bool}
    (h : ∀ c ∈ squareCells a, p c = true) : (squareCells a).countP p = 4 := by
  have h1 := h ⟨a.row, a.col⟩ (by simp [squareCells])
  have h2 := h ⟨a.row, a.col + 1⟩ (by simp [squareCells])
  have h3 := h ⟨a.row + 1, a.col⟩ (by simp [squareCells])
  have h4 := h ⟨a.row + 1, a.col + 1⟩ (by simp [squareCells])
  simp [squareCells, List.countP_cons, h1, h2, h3, h4]

theorem square_all_of_countP {a : Coord} {p : Coord → Bool}
    (h : 4 ≤ (squareCells a).countP p) : ∀ c ∈ squareCells a, p c = true := by
  intro c hc
  by_contra hcf
  rw [Bool.not_eq_true] at hcf
  have hlt := countP_lt_of_mem_false hc hcf
  have hlen : (squareCells a).length = 4 := rfl
  omega

theorem inv_play (zm : Nat → Nat) (b : Board) (mv : Nat) (hI : Inv b)
    (hmem : mv ∈ b.valid_moves_set) (hnm : mv ≠ NULL_MOVE) :
    Inv (b.play_unchecked zm (forward mv) mv) := by
  have hmN : mv < NUM_PIECES := valid_moves_set_lt hmem hnm
  have hwf := forward_wf mv hmN
  have hassoc := valid_moves_set_not_conflicting hmem hnm hmN
  have hdisj : ∀ x ∈ pieceCoords mv, coveredAt b x = false := by
    intro x hx
    by_contra hcc
    rw [Bool.not_eq_false] at hcc
    obtain ⟨h, hh, hxh⟩ := (hI.covered_iff x).mp hcc
    exact assoc_disjoint_coords (hI.hist_lt h hh) hmN (hassoc h hh) x hxh hx
  have hcov' : ∀ c, coveredAt (b.play_unchecked zm (forward mv) mv) c
      = (coveredAt b c || (pieceCoords mv).contains c) :=
    fun c => play_covered zm b (forward mv) mv c
  have hsplit : ∀ a : Coord, (squareCells a).countP
        (fun c => coveredAt (b.play_unchecked zm (forward mv) mv) c)
      = (squareCells a).countP (fun c => coveredAt b c)
        + (squareCells a).countP (fun c => decide (c ∈ pieceCoords mv)) := by
    intro a
    have h1 : (squareCells a).countP
          (fun c => coveredAt (b.play_unchecked zm (forward mv) mv) c)
        = (squareCells a).countP
            (fun c => coveredAt b c || decide (c ∈ pieceCoords mv)) := by
      apply countP_congr_mem
      intro x _
      rw [hcov' x, contains_eq_decide_mem]
    rw [h1]
    apply countP_or_disjoint
    intro c _ hand
    obtain ⟨hp, hq⟩ := hand
    have hcm : c ∈ pieceCoords mv := of_decide_eq_true hq
    rw [hdisj c hcm] at hp
    cases hp
  refine ⟨?_, ?_, ?_, ?_⟩
  · rw [play_unchecked_history]
    intro h hh
    rcases List.mem_append.mp hh with h1 | h1
    · exact hI.hist_lt h h1
    · have he : h = mv := by simpa using h1
      subst he
      exact hmN
  · intro c
    rw [hcov' c, play_unchecked_history]
    constructor
    · intro hor
      rw [Bool.or_eq_true] at hor
      rcases hor with h1 | h1
      · obtain ⟨h, hh, hch⟩ := (hI.covered_iff c).mp h1
        exact ⟨h, List.mem_append.mpr (Or.inl hh), hch⟩
      · refine ⟨mv, List.mem_append.mpr (Or.inr (by simp)), ?_⟩
        rw [contains_eq_decide_mem] at h1
        exact of_decide_eq_true h1
    · rintro ⟨h, hh, hch⟩
      rw [Bool.or_eq_true]
      rcases List.mem_append.mp hh with h1 | h1
      · exact Or.inl ((hI.covered_iff c).mpr ⟨h, h1, hch⟩)
      · have he : h = mv := by simpa using h1
        subst he
        refine Or.inr ?_
        rw [contains_eq_decide_mem]
        exact decide_eq_true hch
  · intro a h9r h9c
    have hpf := play_foursquare_eq zm b (forward mv) mv a
    have hpc : (forward mv).real_coords_lazy.map OffsetCoord.coerce = pieceCoords mv := rfl
    rw [hpc] at hpf
    rw [hpf, hI.counts a h9r h9c, piece_count_bridge hmN h9r h9c, hsplit a]
  · intro a h9r h9c hall
    rcases hhist : b.history with _ | ⟨g0, _ | ⟨g1, grest⟩⟩
    · have hsq : hasFullSquareL (forward mv).real_coords_lazy = true := by
        apply square_in_offsets (wf_in_bounds hwf)
        intro x hx
        have h1 := hall x hx
        rw [hcov' x, Bool.or_eq_true] at h1
        rcases h1 with hcv | hcn
        · obtain ⟨h, hh, _⟩ := (hI.covered_iff x).mp hcv
          rw [hhist] at hh
          exact absurd hh (List.not_mem_nil h)
        · rw [contains_eq_decide_mem] at hcn
          have hxm : x ∈ pieceCoords mv := of_decide_eq_true hcn
          simp only [pieceCoords, List.mem_map] at hxm
          exact hxm
      rw [wf_no_square hwf] at hsq
      cases hsq
    · have hadj := valid_moves_set_one hhist hmem hnm
      have hg0 : g0 < NUM_PIECES := hI.hist_lt g0 (by rw [hhist]; simp)
      have hibL : ∀ oc ∈ (forward g0).real_coords_lazy ++ (forward mv).real_coords_lazy,
          oc.in_bounds_signed = true := by
        intro oc hoc
        rcases List.mem_append.mp hoc with h1 | h1
        · exact wf_in_bounds (forward_wf g0 hg0) oc h1
        · exact wf_in_bounds hwf oc h1
      have hsq : hasFullSquareL
          ((forward g0).real_coords_lazy ++ (forward mv).real_coords_lazy) = true := by
        apply square_in_offsets hibL
        intro x hx
        have h1 := hall x hx
        rw [hcov' x, Bool.or_eq_true] at h1
        rcases h1 with hcv | hcn
        · obtain ⟨h, hh, hxh⟩ := (hI.covered_iff x).mp hcv
          rw [hhist] at hh
          have he : h = g0 := by simpa using hh
          subst he
          simp only [pieceCoords, List.mem_map] at hxh
          obtain ⟨oc, hoc, he2⟩ := hxh
          exact ⟨oc, List.mem_append.mpr (Or.inl hoc), he2⟩
        · rw [contains_eq_decide_mem] at hcn
          have hxm : x ∈ pieceCoords mv := of_decide_eq_true hcn
          simp only [pieceCoords, List.mem_map] at hxm
          obtain ⟨oc, hoc, he2⟩ := hxm
          exact ⟨oc, List.mem_append.mpr (Or.inr hoc), he2⟩
      rw [get_association_adjacent_no_square hadj] at hsq
      cases hsq
    · have hfil := valid_moves_set_filter hhist hmem
      have hnofour := piece_filter_no_four hfil
      have hcount4 : (squareCells a).countP
          (fun c => coveredAt (b.play_unchecked zm (forward mv) mv) c) = 4 :=
        countP_all_four hall
      have holdlt : (squareCells a).countP (fun c => coveredAt b c) < 4 := by
        by_contra hge
        push_neg at hge
        exact hI.nofull a h9r h9c (square_all_of_countP hge)
      have hnewpos : 0 < (squareCells a).countP (fun c => decide (c ∈ pieceCoords mv)) := by
        have h4 := hcount4
        rw [hsplit a] at h4
        omega
      obtain ⟨x, hxsq, hxp⟩ := exists_of_countP_pos hnewpos
      have hxmem : x ∈ pieceCoords mv := of_decide_eq_true hxp
      have hsim : ((forward mv).real_coords_lazy.foldl
          (fun f c => f.update_unchecked c.coerce (some (forward mv).kind))
          b.foursquare_mask) a = 4 := by
        rw [foldl_update_foursquare]
        have hpc : (forward mv).real_coords_lazy.map OffsetCoord.coerce = pieceCoords mv := rfl
        rw [hpc, piece_count_bridge hmN h9r h9c, hI.counts a h9r h9c]
        have h4 := hcount4
        rw [hsplit a] at h4
        omega
      have hxm2 := hxmem
      simp only [pieceCoords, List.mem_map] at hxm2
      obtain ⟨oc, hoc, hce⟩ := hxm2
      have hfalse := hnofour oc hoc
      have htrue : FoursquareCounter.any
          ((forward mv).real_coords_lazy.foldl
            (fun f c => f.update_unchecked c.coerce (some (forward mv).kind))
            b.foursquare_mask) oc.coerce = true := by
        unfold FoursquareCounter.any
        rw [checkFor_iff]
        refine ⟨a, ?_, hsim⟩
        rw [mem_affected_anchors]
        refine ⟨h9r, h9c, ?_⟩
        rw [hce]
        exact hxsq
      rw [hfalse] at htrue
      cases htrue

theorem reachable_inv {zt zm : Nat → Nat} {b : Board} (hb : Reachable zt zm b) : Inv b := by
  induction hb with
  | init symbols hsym => exact inv_init zt symbols hsym
  | step_play b mv hr hmem hnm ih => exact inv_play zm b mv ih hmem hnm
  | step_pass b hr hlen ih => exact inv_swap zt b ih

/-- C1: the foursquare law.  In every reachable board state, no 2x2 block
of cells is fully covered by tiles: of the four cells at rows `r, r+1` and
columns `c, c+1`, at least one is uncovered.  (Spec section 5: the move
filter simulates each candidate on the foursquare counters and discards any
placement that would complete a 2x2; played pieces are pairwise Adjacent,
non-Conflicting, and each piece is itself square-free.) -/
theorem C1_foursquare_law (zt zm : Nat → Nat) (b : Board) (hb : Reachable zt zm b)
    (r c : Nat) (hr : r + 1 < 10) (hc : c + 1 < 10) :
    ¬(coveredAt b ⟨r, c⟩ = true ∧ coveredAt b ⟨r, c + 1⟩ = true ∧
      coveredAt b ⟨r + 1, c⟩ = true ∧ coveredAt b ⟨r + 1, c + 1⟩ = true) := by
  rintro ⟨h1, h2, h3, h4⟩
  have hI := reachable_inv hb
  apply hI.nofull ⟨r, c⟩ (show r < 9 by omega) (show c < 9 by omega)
  intro x hx
  cases x with
  | mk xr xc =>
    rw [mem_squareCells] at hx
    dsimp only at hx
    obtain ⟨hxr, hxc⟩ := hx
    rcases hxr with hxr | hxr <;> rcases hxc with hxc | hxc <;> subst hxr <;> subst hxc
    · exact h1
    · exact h2
    · exact h3
    · exact h4

/-- Witness for C1 at the fresh board over the empty grid and the top-left
2x2. -/
theorem C1_foursquare_law_witness :
    ¬(coveredAt board0 ⟨0, 0⟩ = true ∧ coveredAt board0 ⟨0, 1⟩ = true ∧
      coveredAt board0 ⟨1, 0⟩ = true ∧ coveredAt board0 ⟨1, 1⟩ = true) :=
  C1_foursquare_law ztZero zmZero board0 (Reachable.init none (new_none_symbols ztZero)) 0 0
    (by decide) (by decide)

end BoL
